import Mathlib

/-!
A shallow embedding of the storage-engine core of Dockbase (disk manager,
disk scheduler worker, bounded channel, ARC replacer) together with proofs
of the specification's claims about it.

Conventions of the embedding:
* `PageId` and byte values are `Nat`; the `i32` statistics counters are `Int`.
* `HashMap` is modelled as an association list with replace-on-insert
  semantics (`alGet`, `alInsert`, `alErase`).
* `Vec` (`free_slots`) is a `List` whose last element is the top of the
  stack: `push` appends, `pop` takes the last element.
* File contents are `List Nat` (one `Nat` per byte); `set_len` truncates or
  zero-extends; writing past the end zero-pads, as the OS does.
* Fallible file I/O inside an operation is modelled by a boolean `ioOk`
  parameter: when it is `false` the seek/write/flush step fails with an
  I/O error exactly where the source propagates one.
* The page size `DOCKBASE_PAGE_SIZE` and the default capacity
  `DEFAULT_DB_IO_SIZE` live in a config file that is not part of the
  sources; every definition is therefore parametrized by `PS`
  (the page size) and by the initial capacity.
-/

namespace Dockbase

/-- The exception enum of src/common/exception.rs.  The source's `IO`
variant is spelled `IOError` here; all variants carry a message string. -/
inductive Exception where
  | Invalid (msg : String)
  | OutOfRange (msg : String)
  | Conversion (msg : String)
  | UnknownType (msg : String)
  | Decimal (msg : String)
  | MismatchType (msg : String)
  | DivideByZero (msg : String)
  | IncompatibleType (msg : String)
  | OutOfMemory (msg : String)
  | NotImplemented (msg : String)
  | Execution (msg : String)
  | IOError (msg : String)
deriving DecidableEq

/-- Whether an `Except` value is a success; mirrors Rust's `Result::is_ok`. -/
def exceptIsOk : Except Exception α → Bool
  | .ok _ => true
  | .error _ => false

/-! ### Association lists (the model of `HashMap`) -/

/-- Lookup in an association list; mirrors `HashMap::get`. -/
def alGet : List (Nat × β) → Nat → Option β
  | [], _ => none
  | (a, v) :: t, k => if a = k then some v else alGet t k

/-- Remove every binding of a key; mirrors `HashMap::remove`'s effect on
the map (the returned value is read off with `alGet` separately). -/
def alErase : List (Nat × β) → Nat → List (Nat × β)
  | [], _ => []
  | (a, v) :: t, k => if a = k then alErase t k else (a, v) :: alErase t k

/-- Insert-or-replace; mirrors `HashMap::insert`. -/
def alInsert (l : List (Nat × β)) (k : Nat) (v : β) : List (Nat × β) :=
  (k, v) :: alErase l k

/-- The keys of an association list. -/
def alKeys (l : List (Nat × β)) : List Nat :=
  l.map (·.1)

/-- The values of an association list. -/
def alValues (l : List (Nat × β)) : List β :=
  l.map (·.2)

theorem alGet_eq_none_iff {l : List (Nat × β)} {k : Nat} :
    alGet l k = none ↔ ∀ e ∈ l, e.1 ≠ k := by
  induction l with
  | nil => simp [alGet]
  | cons e t ih =>
    obtain ⟨a, v⟩ := e
    by_cases h : a = k <;> simp [alGet, h, ih]

theorem mem_alErase {l : List (Nat × β)} {k : Nat} {e : Nat × β} :
    e ∈ alErase l k ↔ e ∈ l ∧ e.1 ≠ k := by
  induction l with
  | nil => simp [alErase]
  | cons f t ih =>
    obtain ⟨a, w⟩ := f
    by_cases ha : a = k
    · subst ha
      rw [show alErase ((a, w) :: t) a = alErase t a from by simp [alErase]]
      rw [ih]
      constructor
      · rintro ⟨hm, hne⟩; exact ⟨List.mem_cons_of_mem _ hm, hne⟩
      · rintro ⟨hm, hne⟩
        rcases List.mem_cons.1 hm with rfl | hm'
        · exact absurd rfl hne
        · exact ⟨hm', hne⟩
    · rw [show alErase ((a, w) :: t) k = (a, w) :: alErase t k from by simp [alErase, ha]]
      constructor
      · intro hm
        rcases List.mem_cons.1 hm with rfl | hm'
        · exact ⟨List.mem_cons_self _ _, ha⟩
        · obtain ⟨hm2, hne⟩ := ih.1 hm'
          exact ⟨List.mem_cons_of_mem _ hm2, hne⟩
      · rintro ⟨hm, hne⟩
        rcases List.mem_cons.1 hm with rfl | hm'
        · exact List.mem_cons_self _ _
        · exact List.mem_cons_of_mem _ (ih.2 ⟨hm', hne⟩)

theorem alGet_erase {l : List (Nat × β)} {k q : Nat} :
    alGet (alErase l k) q = if q = k then none else alGet l q := by
  induction l with
  | nil => simp [alErase, alGet]
  | cons e t ih =>
    obtain ⟨a, w⟩ := e
    simp only [alErase]
    by_cases ha : a = k
    · rw [if_pos ha]
      subst ha
      rw [ih]
      by_cases hq : q = a
      · simp [hq]
      · have ha' : a ≠ q := fun h => hq h.symm
        simp [hq, alGet, ha']
    · rw [if_neg ha]
      by_cases hq : a = q
      · subst hq
        simp [alGet, ha]
      · simp [alGet, hq, ih]

theorem alGet_insert_self {l : List (Nat × β)} {k : Nat} {v : β} :
    alGet (alInsert l k v) k = some v := by
  simp [alInsert, alGet]

theorem alGet_insert_ne {l : List (Nat × β)} {k q : Nat} {v : β} (h : q ≠ k) :
    alGet (alInsert l k v) q = alGet l q := by
  have hk : ¬ k = q := fun hk => h hk.symm
  show alGet ((k, v) :: alErase l k) q = alGet l q
  simp only [alGet]
  rw [if_neg hk, alGet_erase, if_neg h]

theorem alGet_erase_self {l : List (Nat × β)} {k : Nat} :
    alGet (alErase l k) k = none := by
  simp [alGet_erase]

theorem mem_alKeys_iff {l : List (Nat × β)} {q : Nat} :
    q ∈ alKeys l ↔ ∃ v, (q, v) ∈ l := by
  simp only [alKeys, List.mem_map]
  constructor
  · rintro ⟨⟨a, v⟩, hm, rfl⟩; exact ⟨v, hm⟩
  · rintro ⟨v, hm⟩; exact ⟨(q, v), hm, rfl⟩

theorem mem_alKeys_erase {l : List (Nat × β)} {k q : Nat} :
    q ∈ alKeys (alErase l k) ↔ q ≠ k ∧ q ∈ alKeys l := by
  simp only [mem_alKeys_iff, mem_alErase]
  constructor
  · rintro ⟨v, hm, hne⟩; exact ⟨hne, v, hm⟩
  · rintro ⟨hne, v, hm⟩; exact ⟨v, hm, hne⟩

theorem mem_alKeys_insert {l : List (Nat × β)} {k q : Nat} {v : β} :
    q ∈ alKeys (alInsert l k v) ↔ q = k ∨ q ∈ alKeys l := by
  show q ∈ alKeys ((k, v) :: alErase l k) ↔ _
  simp only [alKeys, List.map_cons, List.mem_cons]
  constructor
  · rintro (rfl | h)
    · exact Or.inl rfl
    · exact Or.inr (mem_alKeys_erase.1 h).2
  · rintro (rfl | h)
    · exact Or.inl rfl
    · by_cases hk : q = k
      · exact Or.inl hk
      · exact Or.inr (mem_alKeys_erase.2 ⟨hk, h⟩)

theorem alGet_mem_alKeys {l : List (Nat × β)} {k : Nat} {v : β}
    (h : alGet l k = some v) : k ∈ alKeys l := by
  induction l with
  | nil => simp [alGet] at h
  | cons e t ih =>
    obtain ⟨a, w⟩ := e
    by_cases ha : a = k
    · subst ha; simp [alKeys]
    · simp only [alGet, if_neg ha] at h
      simp [alKeys] at ih ⊢
      exact Or.inr (by simpa [alKeys] using ih h)

theorem mem_alKeys_alGet {l : List (Nat × β)} {k : Nat}
    (h : k ∈ alKeys l) : ∃ v, alGet l k = some v := by
  induction l with
  | nil => simp [alKeys] at h
  | cons e t ih =>
    obtain ⟨a, w⟩ := e
    by_cases ha : a = k
    · subst ha; exact ⟨w, by simp [alGet]⟩
    · simp only [alKeys, List.map_cons, List.mem_cons] at h
      rcases h with h | h
      · exact absurd h.symm ha
      · simpa [alGet, ha] using ih h

/-! ### Byte-file model -/

/-- The effect of `File::set_len`: truncate or zero-extend to length n. -/
def setLen (f : List Nat) (n : Nat) : List Nat :=
  if n ≤ f.length then f.take n else f ++ List.replicate (n - f.length) 0

/-- Seek to `off` and write all of `data`: bytes before `off` are kept
(zero-padding if the file was shorter), `data` overwrites from `off`, and
any bytes past the written range are kept. -/
def writeAt (f : List Nat) (off : Nat) (data : List Nat) : List Nat :=
  let f2 := if f.length < off then f ++ List.replicate (off - f.length) 0 else f
  f2.take off ++ data ++ f2.drop (off + data.length)

theorem length_setLen (f : List Nat) (n : Nat) : (setLen f n).length = n := by
  unfold setLen
  by_cases h : n ≤ f.length
  · rw [if_pos h, List.length_take]
    omega
  · rw [if_neg h, List.length_append, List.length_replicate]
    omega

theorem writeAt_padded_length (f : List Nat) (off : Nat) :
    off ≤ (if f.length < off then f ++ List.replicate (off - f.length) 0 else f).length := by
  by_cases h : f.length < off <;> simp [h] <;> omega

theorem drop_writeAt (f : List Nat) (off : Nat) (data : List Nat) :
    (writeAt f off data).drop off = data ++
      (if f.length < off then f ++ List.replicate (off - f.length) 0 else f).drop
        (off + data.length) := by
  unfold writeAt
  have hlen : ((if f.length < off then f ++ List.replicate (off - f.length) 0 else f).take
      off).length = off := by
    rw [List.length_take]
    exact Nat.min_eq_left (writeAt_padded_length f off)
  rw [List.append_assoc, List.drop_left' hlen]

theorem take_drop_writeAt (f : List Nat) (off : Nat) (data : List Nat) :
    ((writeAt f off data).drop off).take data.length = data := by
  rw [drop_writeAt, List.take_left]

theorem length_writeAt_ge (f : List Nat) (off : Nat) (data : List Nat) :
    off + data.length ≤ (writeAt f off data).length := by
  unfold writeAt
  have h := writeAt_padded_length f off
  simp only [List.length_append, List.length_take, List.length_drop]
  omega

/-! ### Disk manager state (src/storage/disk/disk_manager.rs) -/

/-- The metadata record guarded by the metadata mutex. -/
structure Metadata where
  num_flushes : Int
  num_writes : Int
  num_deletes : Int
  page_count : Nat
  page_capacity : Nat
  pages : List (Nat × Nat)
  free_slots : List Nat
  flush_log : Bool
deriving DecidableEq

/-- The disk manager's mutable state: the metadata plus the contents of
the two files (named db_io and log_io in the source). -/
structure DMState where
  meta : Metadata
  dbFile : List Nat
  logFile : List Nat
deriving DecidableEq

/-- The state `DiskManager::new` builds when both files are created
fresh: zeroed counters, capacity `defaultCap` (`DEFAULT_DB_IO_SIZE`), the
data file pre-extended to `(defaultCap + 1) * PS` bytes, an empty log. -/
def initDM (PS defaultCap : Nat) : DMState :=
  { meta := { num_flushes := 0, num_writes := 0, num_deletes := 0,
              page_count := 0, page_capacity := defaultCap,
              pages := [], free_slots := [], flush_log := false }
    dbFile := List.replicate ((defaultCap + 1) * PS) 0
    logFile := [] }

/-- DiskManager::allocate_page.  Pops the top of `free_slots` (a Vec, so
the last element) if any; otherwise hands out `page_count * PS`,
increments `page_count`, and on overflow doubles `page_capacity` and
calls set_len on the data file. -/
def allocate_page (PS : Nat) (s : DMState) : Nat × DMState :=
  match s.meta.free_slots.getLast? with
  | some off =>
    (off, { s with meta := { s.meta with free_slots := s.meta.free_slots.dropLast } })
  | none =>
    if s.meta.page_count + 1 > s.meta.page_capacity then
      (s.meta.page_count * PS, { s with
        meta := { s.meta with
          page_count := s.meta.page_count + 1
          page_capacity := s.meta.page_capacity * 2 }
        dbFile := setLen s.dbFile (s.meta.page_capacity * 2 * PS) })
    else
      (s.meta.page_count * PS,
       { s with meta := { s.meta with page_count := s.meta.page_count + 1 } })

/-- DiskManager::write_page.  Resolves the target offset (existing
mapping, else a fresh allocation), performs the seek+write_all+flush
(successful iff `ioOk`), then either commits the mapping and bumps
`num_writes`, or lets the `AllocationGuard` push a fresh allocation back
onto `free_slots` on the error path. -/
def write_page (PS : Nat) (s : DMState) (page_id : Nat) (page_data : List Nat)
    (ioOk : Bool) : Except Exception Unit × DMState :=
  match alGet s.meta.pages page_id with
  | some off =>
    -- existing mapping: is_new = false, so the error path rolls nothing back
    if ioOk then
      (.ok (), { s with
        dbFile := writeAt s.dbFile off page_data
        meta := { s.meta with
          pages := alInsert s.meta.pages page_id off
          num_writes := s.meta.num_writes + 1 } })
    else
      (.error (.IOError "Internal I/O subsystem error"), s)
  | none =>
    -- fresh allocation: is_new = true, so the AllocationGuard's drop pushes
    -- the offset back onto free_slots unless the commit cancelled it
    if ioOk then
      (.ok (), { (allocate_page PS s).2 with
        dbFile := writeAt (allocate_page PS s).2.dbFile (allocate_page PS s).1 page_data
        meta := { (allocate_page PS s).2.meta with
          pages := alInsert (allocate_page PS s).2.meta.pages page_id (allocate_page PS s).1
          num_writes := (allocate_page PS s).2.meta.num_writes + 1 } })
    else
      (.error (.IOError "Internal I/O subsystem error"),
       { (allocate_page PS s).2 with
         meta := { (allocate_page PS s).2.meta with
           free_slots := (allocate_page PS s).2.meta.free_slots ++
             [(allocate_page PS s).1] } })

/-- DiskManager::read_page.  Fails with Invalid on an unknown id, with an
I/O error when the offset is at or past end-of-file; otherwise reads up
to `buf.length` bytes from the offset and, when fewer than `PS` bytes
were read, zero-fills the rest of the buffer.  The state is unchanged;
the returned list is the buffer's contents afterwards. -/
def read_page (PS : Nat) (s : DMState) (page_id : Nat) (buf : List Nat) :
    Except Exception (List Nat) :=
  match alGet s.meta.pages page_id with
  | none => .error (.Invalid "Page not found in disk mapping")
  | some off =>
    if s.dbFile.length ≤ off then .error (.IOError "Read offset past end of file")
    else if ((s.dbFile.drop off).take buf.length).length < PS then
      .ok ((s.dbFile.drop off).take buf.length ++
        List.replicate (buf.length - ((s.dbFile.drop off).take buf.length).length) 0)
    else
      .ok ((s.dbFile.drop off).take buf.length ++
        buf.drop ((s.dbFile.drop off).take buf.length).length)

/-- DiskManager::delete_page.  Removes the mapping if present, pushes the
freed offset onto `free_slots` and bumps `num_deletes`; a miss is a
no-op. -/
def delete_page (s : DMState) (page_id : Nat) : Except Exception Unit × DMState :=
  match alGet s.meta.pages page_id with
  | some off =>
    (.ok (), { s with meta := { s.meta with
        pages := alErase s.meta.pages page_id
        free_slots := s.meta.free_slots ++ [off]
        num_deletes := s.meta.num_deletes + 1 } })
  | none => (.ok (), s)

/-- DiskManager::write_log.  Empty input returns at once; otherwise the
flag `flush_log` is raised, the bytes are appended and flushed
(successful iff `ioOk`), and only on success is the flag lowered and
`num_flushes` bumped — an I/O error propagates with the flag still up. -/
def write_log (s : DMState) (log_data : List Nat) (ioOk : Bool) :
    Except Exception Unit × DMState :=
  if log_data.isEmpty then (.ok (), s)
  else if ioOk then
    (.ok (), { s with
      logFile := s.logFile ++ log_data
      meta := { s.meta with
        num_flushes := s.meta.num_flushes + 1
        flush_log := false } })
  else
    (.error (.IOError "Internal I/O subsystem error"),
     { s with meta := { s.meta with flush_log := true } })

/-- DiskManager::read_log.  Returns false when `offset` is at or past the
log's end; otherwise reads up to `buf.length` bytes from `offset`,
zero-filling a short read.  The returned list is the buffer afterwards. -/
def read_log (s : DMState) (buf : List Nat) (offset : Nat) :
    Except Exception (Bool × List Nat) :=
  if s.logFile.length ≤ offset then .ok (false, buf)
  else if ((s.logFile.drop offset).take buf.length).length < buf.length then
    .ok (true, (s.logFile.drop offset).take buf.length ++
      List.replicate (buf.length - ((s.logFile.drop offset).take buf.length).length) 0)
  else
    .ok (true, (s.logFile.drop offset).take buf.length ++
      buf.drop ((s.logFile.drop offset).take buf.length).length)

/-! ### Facts about allocate_page -/

theorem allocate_page_untouched (PS : Nat) (s : DMState) :
    (allocate_page PS s).2.meta.pages = s.meta.pages ∧
    (allocate_page PS s).2.meta.num_writes = s.meta.num_writes ∧
    (allocate_page PS s).2.meta.num_flushes = s.meta.num_flushes ∧
    (allocate_page PS s).2.meta.num_deletes = s.meta.num_deletes ∧
    (allocate_page PS s).2.meta.flush_log = s.meta.flush_log ∧
    (allocate_page PS s).2.logFile = s.logFile := by
  unfold allocate_page
  cases s.meta.free_slots.getLast? with
  | none =>
    by_cases h : s.meta.page_count + 1 > s.meta.page_capacity <;>
      simp [h]
  | some off => simp

/-- Claim C4: allocate_page pops the most recently freed slot (LIFO) when
free_slots is non-empty; otherwise it hands out page_count * PS,
increments page_count, and exactly when the new count exceeds the
capacity it doubles the capacity and resizes the data file to
capacity * PS bytes (leaving the file alone otherwise). -/
theorem allocate_page_spec (PS : Nat) (s : DMState) :
    (∀ fs o, s.meta.free_slots = fs ++ [o] →
      allocate_page PS s =
        (o, { s with meta := { s.meta with free_slots := fs } })) ∧
    (s.meta.free_slots = [] →
      (allocate_page PS s).1 = s.meta.page_count * PS ∧
      (allocate_page PS s).2.meta.page_count = s.meta.page_count + 1 ∧
      (s.meta.page_count + 1 > s.meta.page_capacity →
        (allocate_page PS s).2.meta.page_capacity = s.meta.page_capacity * 2 ∧
        (allocate_page PS s).2.dbFile.length =
          (allocate_page PS s).2.meta.page_capacity * PS) ∧
      (¬ s.meta.page_count + 1 > s.meta.page_capacity →
        (allocate_page PS s).2.meta.page_capacity = s.meta.page_capacity ∧
        (allocate_page PS s).2.dbFile = s.dbFile)) := by
  constructor
  · intro fs o hfs
    unfold allocate_page
    rw [hfs, List.getLast?_concat, List.dropLast_concat]
  · intro hfs
    unfold allocate_page
    rw [hfs]
    simp only [List.getLast?_nil]
    by_cases h : s.meta.page_count + 1 > s.meta.page_capacity
    · rw [if_pos h]
      exact ⟨rfl, rfl, fun _ => ⟨rfl, length_setLen _ _⟩, fun hc => absurd h hc⟩
    · rw [if_neg h]
      exact ⟨rfl, rfl, fun hc => absurd hc h, fun _ => ⟨rfl, rfl⟩⟩

/-- Witness for C4: the LIFO branch at a concrete state, and the
counter branch with capacity doubling from a concrete full state. -/
theorem allocate_page_spec_witness :
    allocate_page 2 ⟨⟨0, 0, 0, 1, 1, [], [6], false⟩, [0, 0, 0, 0], []⟩ =
      (6, ⟨⟨0, 0, 0, 1, 1, [], [], false⟩, [0, 0, 0, 0], []⟩) ∧
    (allocate_page 2 ⟨⟨0, 0, 0, 1, 1, [], [], false⟩, [0, 0, 0, 0], []⟩).2.meta.page_capacity
      = 2 := by
  constructor
  · exact (allocate_page_spec 2 _).1 [] 6 rfl
  · have h := ((allocate_page_spec 2
      ⟨⟨0, 0, 0, 1, 1, [], [], false⟩, [0, 0, 0, 0], []⟩).2 rfl).2.2.1 (by decide)
    exact h.1

/-! ### Claim C1: write/read round-trip -/

theorem read_page_after_writeAt (PS : Nat) (hPS : 0 < PS) (s' : DMState)
    (db : List Nat) (p off : Nat) (d buf : List Nat)
    (hd : d.length = PS) (hb : buf.length = PS)
    (hget : alGet s'.meta.pages p = some off)
    (hdb : s'.dbFile = writeAt db off d) :
    read_page PS s' p buf = .ok d := by
  unfold read_page
  rw [hget]
  dsimp only
  have hlen := length_writeAt_ge db off d
  have hoff : ¬ (s'.dbFile.length ≤ off) := by rw [hdb]; omega
  rw [if_neg hoff]
  have hraw : (s'.dbFile.drop off).take buf.length = d := by
    rw [hdb, hb, ← hd]
    exact take_drop_writeAt db off d
  rw [hraw, hd]
  rw [if_neg (lt_irrefl PS)]
  rw [← hb, List.drop_length, List.append_nil]

/-- Claim C1: for any state, page id and PAGE_SIZE-byte buffer `d`, a
write_page whose I/O succeeds returns Ok, a subsequent read_page with a
PAGE_SIZE buffer returns exactly `d`, and num_writes went up by one. -/
theorem write_read_roundtrip (PS : Nat) (hPS : 0 < PS) (s : DMState) (p : Nat)
    (d buf : List Nat) (hd : d.length = PS) (hb : buf.length = PS) :
    (write_page PS s p d true).1 = .ok () ∧
    read_page PS (write_page PS s p d true).2 p buf = .ok d ∧
    (write_page PS s p d true).2.meta.num_writes = s.meta.num_writes + 1 := by
  cases hget : alGet s.meta.pages p with
  | some off =>
    have hw : write_page PS s p d true = (.ok (), { s with
        dbFile := writeAt s.dbFile off d
        meta := { s.meta with
          pages := alInsert s.meta.pages p off
          num_writes := s.meta.num_writes + 1 } }) := by
      unfold write_page
      rw [hget]
      simp
    rw [hw]
    refine ⟨rfl, ?_, rfl⟩
    exact read_page_after_writeAt PS hPS _ s.dbFile p off d buf hd hb
      (by simp [alGet_insert_self]) (by simp)
  | none =>
    have hw : write_page PS s p d true = (.ok (), { (allocate_page PS s).2 with
        dbFile := writeAt (allocate_page PS s).2.dbFile (allocate_page PS s).1 d
        meta := { (allocate_page PS s).2.meta with
          pages := alInsert (allocate_page PS s).2.meta.pages p (allocate_page PS s).1
          num_writes := (allocate_page PS s).2.meta.num_writes + 1 } }) := by
      unfold write_page
      rw [hget]
      simp
    rw [hw]
    refine ⟨rfl, ?_, ?_⟩
    · exact read_page_after_writeAt PS hPS _ (allocate_page PS s).2.dbFile p
        (allocate_page PS s).1 d buf hd hb (by simp [alGet_insert_self]) (by simp)
    · show (allocate_page PS s).2.meta.num_writes + 1 = s.meta.num_writes + 1
      rw [(allocate_page_untouched PS s).2.1]

/-- Witness for C1 at page size 2: writing bytes [7, 9] to page 10 of a
fresh manager and reading them back. -/
theorem write_read_roundtrip_witness :
    (0 : Nat) < 2 ∧ ([7, 9] : List Nat).length = 2 ∧ ([0, 0] : List Nat).length = 2 ∧
    ((write_page 2 (initDM 2 1) 10 [7, 9] true).1 = .ok () ∧
     read_page 2 (write_page 2 (initDM 2 1) 10 [7, 9] true).2 10 [0, 0] = .ok [7, 9] ∧
     (write_page 2 (initDM 2 1) 10 [7, 9] true).2.meta.num_writes =
       (initDM 2 1).meta.num_writes + 1) :=
  ⟨by decide, by decide, by decide,
   write_read_roundtrip 2 (by decide) (initDM 2 1) 10 [7, 9] [0, 0] rfl rfl⟩

/-! ### Claim C3: the AllocationGuard rollback -/

theorem allocate_page_counter_free (PS : Nat) (s : DMState)
    (hfree : s.meta.free_slots = []) :
    (allocate_page PS s).2.meta.free_slots = [] ∧
    (allocate_page PS s).1 = s.meta.page_count * PS := by
  unfold allocate_page
  rw [hfree]
  simp only [List.getLast?_nil]
  by_cases h : s.meta.page_count + 1 > s.meta.page_capacity
  · rw [if_pos h]; exact ⟨hfree, rfl⟩
  · rw [if_neg h]; exact ⟨hfree, rfl⟩

theorem write_page_fresh_err_eq (PS : Nat) (s : DMState) (p : Nat) (d : List Nat)
    (hnone : alGet s.meta.pages p = none) :
    write_page PS s p d false =
      (.error (.IOError "Internal I/O subsystem error"),
       { (allocate_page PS s).2 with
         meta := { (allocate_page PS s).2.meta with
           free_slots := (allocate_page PS s).2.meta.free_slots ++
             [(allocate_page PS s).1] } }) := by
  unfold write_page
  rw [hnone]
  rfl

theorem write_page_fresh_ok_eq (PS : Nat) (s : DMState) (p : Nat) (d : List Nat)
    (hnone : alGet s.meta.pages p = none) :
    write_page PS s p d true =
      (.ok (), { (allocate_page PS s).2 with
        dbFile := writeAt (allocate_page PS s).2.dbFile (allocate_page PS s).1 d
        meta := { (allocate_page PS s).2.meta with
          pages := alInsert (allocate_page PS s).2.meta.pages p (allocate_page PS s).1
          num_writes := (allocate_page PS s).2.meta.num_writes + 1 } }) := by
  unfold write_page
  rw [hnone]
  rfl

/-- Claim C3: in a write_page whose offset came fresh from the page
counter (no mapping for the id, empty free pool), an I/O failure pushes
that offset onto free_slots before the error is returned, while a
successful call leaves free_slots without it (the commit cancels the
rollback). -/
theorem write_page_rollback (PS : Nat) (s : DMState) (p : Nat) (d : List Nat)
    (hnone : alGet s.meta.pages p = none) (hfree : s.meta.free_slots = []) :
    ((write_page PS s p d false).1 =
        .error (.IOError "Internal I/O subsystem error") ∧
      (write_page PS s p d false).2.meta.free_slots = [s.meta.page_count * PS]) ∧
    ((write_page PS s p d true).1 = .ok () ∧
      (write_page PS s p d true).2.meta.free_slots = []) := by
  have hfs := (allocate_page_counter_free PS s hfree).1
  have hoff := (allocate_page_counter_free PS s hfree).2
  refine ⟨⟨?_, ?_⟩, ?_, ?_⟩
  · rw [write_page_fresh_err_eq PS s p d hnone]
  · rw [write_page_fresh_err_eq PS s p d hnone]
    show (allocate_page PS s).2.meta.free_slots ++ [(allocate_page PS s).1] = _
    rw [hfs, hoff, List.nil_append]
  · rw [write_page_fresh_ok_eq PS s p d hnone]
  · rw [write_page_fresh_ok_eq PS s p d hnone]
    exact hfs

/-- Witness for C3 on a fresh manager with page size 2. -/
theorem write_page_rollback_witness :
    alGet (initDM 2 1).meta.pages 3 = none ∧ (initDM 2 1).meta.free_slots = [] ∧
    ((write_page 2 (initDM 2 1) 3 [5, 5] false).2.meta.free_slots = [0] ∧
     (write_page 2 (initDM 2 1) 3 [5, 5] true).2.meta.free_slots = []) := by
  refine ⟨rfl, rfl, ?_, ?_⟩
  · exact ((write_page_rollback 2 (initDM 2 1) 3 [5, 5] rfl rfl).1).2
  · exact ((write_page_rollback 2 (initDM 2 1) 3 [5, 5] rfl rfl).2).2

/-! ### Claim C7: the flush_log flag (corrected) -/

/-- Counterexample to C7 as stated: with a one-byte input whose
write/flush I/O fails, write_log returns (an error) with flush_log still
true, not false. -/
theorem write_log_flag_counterexample :
    exceptIsOk (write_log (initDM 1 1) [7] false).1 = false ∧
    (write_log (initDM 1 1) [7] false).2.meta.flush_log = true := by
  exact ⟨rfl, rfl⟩

/-- Claim C7 as amended: an empty input returns Ok with no state change;
a non-empty input whose I/O succeeds returns Ok with flush_log lowered;
a non-empty input whose I/O fails returns the error with flush_log still
raised. -/
theorem write_log_flag (s : DMState) (b : List Nat) :
    (b = [] → ∀ ioOk, write_log s b ioOk = (.ok (), s)) ∧
    (b ≠ [] →
      (write_log s b true).1 = .ok () ∧
      (write_log s b true).2.meta.flush_log = false) ∧
    (b ≠ [] →
      (write_log s b false).1 = .error (.IOError "Internal I/O subsystem error") ∧
      (write_log s b false).2.meta.flush_log = true) := by
  refine ⟨fun hb _ => ?_, fun hb => ?_, fun hb => ?_⟩
  · subst hb; rfl
  · cases b with
    | nil => exact absurd rfl hb
    | cons x xs => exact ⟨rfl, rfl⟩
  · cases b with
    | nil => exact absurd rfl hb
    | cons x xs => exact ⟨rfl, rfl⟩

/-- Witness for the amended C7 at concrete inputs. -/
theorem write_log_flag_witness :
    write_log (initDM 1 1) [] true = (.ok (), initDM 1 1) ∧
    (write_log (initDM 1 1) [7] true).2.meta.flush_log = false ∧
    (write_log (initDM 1 1) [7] false).2.meta.flush_log = true := by
  refine ⟨?_, ?_, ?_⟩
  · exact (write_log_flag (initDM 1 1) []).1 rfl true
  · exact ((write_log_flag (initDM 1 1) [7]).2.1 (by decide)).2
  · exact ((write_log_flag (initDM 1 1) [7]).2.2 (by decide)).2

/-! ### Claim C8: the log sequence round-trip -/

theorem write_log_ok_eq (s : DMState) (b : List Nat) (hb : b ≠ []) :
    write_log s b true =
      (.ok (), { s with
        logFile := s.logFile ++ b
        meta := { s.meta with
          num_flushes := s.meta.num_flushes + 1
          flush_log := false } }) := by
  cases b with
  | nil => exact absurd rfl hb
  | cons x xs => rfl

theorem read_log_exact (s : DMState) (pre b post buf : List Nat)
    (hlog : s.logFile = pre ++ b ++ post) (hb : buf.length = b.length)
    (hne : b ≠ []) :
    read_log s buf pre.length = .ok (true, b) := by
  unfold read_log
  have hlen : ¬ (s.logFile.length ≤ pre.length) := by
    rw [hlog]
    simp only [List.length_append]
    cases b with
    | nil => exact absurd rfl hne
    | cons x xs => simp; omega
  rw [if_neg hlen]
  have hraw : (s.logFile.drop pre.length).take buf.length = b := by
    rw [hlog, List.append_assoc, List.drop_left, hb]
    exact List.take_left' rfl
  rw [hraw, hb]
  rw [if_neg (lt_irrefl b.length)]
  rw [← hb, List.drop_length, List.append_nil]

/-- Claim C8: from an empty log with a zero flush counter, two non-empty
appends land back-to-back: reading the first length from offset 0 yields
the first entry, reading the second length from the first length yields
the second, and num_flushes is 2. -/
theorem log_sequence (s : DMState) (b1 b2 buf1 buf2 : List Nat)
    (hlog : s.logFile = []) (hnf : s.meta.num_flushes = 0)
    (h1 : b1 ≠ []) (h2 : b2 ≠ [])
    (hb1 : buf1.length = b1.length) (hb2 : buf2.length = b2.length) :
    read_log (write_log (write_log s b1 true).2 b2 true).2 buf1 0 = .ok (true, b1) ∧
    read_log (write_log (write_log s b1 true).2 b2 true).2 buf2 b1.length
      = .ok (true, b2) ∧
    (write_log (write_log s b1 true).2 b2 true).2.meta.num_flushes = 2 := by
  rw [write_log_ok_eq s b1 h1, write_log_ok_eq _ b2 h2]
  refine ⟨?_, ?_, ?_⟩
  · exact read_log_exact _ [] b1 b2 buf1 (by simp [hlog]) hb1 h1
  · exact read_log_exact _ b1 b2 [] buf2 (by simp [hlog]) hb2 h2
  · show s.meta.num_flushes + 1 + 1 = 2
    rw [hnf]
    decide

/-- Witness for C8 with two two-byte entries on a fresh manager. -/
theorem log_sequence_witness :
    read_log (write_log (write_log (initDM 1 1) [3, 4] true).2 [5, 6] true).2
      [0, 0] 0 = .ok (true, [3, 4]) ∧
    read_log (write_log (write_log (initDM 1 1) [3, 4] true).2 [5, 6] true).2
      [0, 0] 2 = .ok (true, [5, 6]) ∧
    (write_log (write_log (initDM 1 1) [3, 4] true).2 [5, 6] true).2.meta.num_flushes
      = 2 :=
  log_sequence (initDM 1 1) [3, 4] [5, 6] [0, 0] [0, 0] rfl rfl
    (by decide) (by decide) rfl rfl

/-! ### Bounded channel (src/common/channel.rs) -/

/-- Abstract lock state of the channel: whether the mutex is poisoned,
and the queued elements. -/
structure ChannelState (α : Type) where
  poisoned : Bool
  queue : List α
deriving DecidableEq

/-- The observable outcome of Channel::get: a returned head plus the
remaining queue, a returned error, blocking on the condition variable, or
a panic (the source unwraps the lock and wait results). -/
inductive GetOutcome (α : Type) where
  | ret (head : α) (rest : List α)
  | err (e : Exception)
  | blocks
  | panics
deriving DecidableEq

/-- Channel::put: the lock result is propagated with the question-mark
operator, so a poisoned mutex returns Execution("Lock poisoned");
otherwise the element is appended at the back and the condvar signalled. -/
def channelPut (s : ChannelState α) (x : α) : Except Exception Unit × ChannelState α :=
  if s.poisoned then (.error (.Execution "Lock poisoned"), s)
  else (.ok (), { s with queue := s.queue ++ [x] })

/-- Channel::get: the source calls unwrap on the lock and on the condvar
wait, so a poisoned mutex panics; an empty queue blocks in the wait loop;
otherwise the head is popped and returned. -/
def channelGet (s : ChannelState α) : GetOutcome α :=
  if s.poisoned then .panics
  else
    match s.queue with
    | [] => .blocks
    | x :: xs => .ret x xs

/-- Counterexample to C5 as stated: on a poisoned channel, get does not
fail by returning the Execution("Lock poisoned") error — it panics. -/
theorem channel_get_poisoned_counterexample :
    channelGet ⟨true, ([] : List Nat)⟩ = GetOutcome.panics ∧
    (GetOutcome.panics : GetOutcome Nat) ≠ GetOutcome.err (.Execution "Lock poisoned") := by
  exact ⟨rfl, by decide⟩

/-- Claim C5 as amended: put fails only by returning
Execution("Lock poisoned") when the mutex is poisoned, and otherwise
appends; get never returns an error — when the mutex is poisoned it
panics, otherwise it blocks while the queue is empty and returns the head
once one is present. -/
theorem channel_contract (α : Type) (s : ChannelState α) (x : α) :
    (s.poisoned = true →
      channelPut s x = (.error (.Execution "Lock poisoned"), s) ∧
      channelGet s = .panics) ∧
    (s.poisoned = false →
      channelPut s x = (.ok (), { s with queue := s.queue ++ [x] }) ∧
      (s.queue = [] → channelGet s = .blocks) ∧
      (∀ h t, s.queue = h :: t → channelGet s = .ret h t)) := by
  constructor
  · intro hp
    unfold channelPut channelGet
    rw [hp]
    exact ⟨rfl, rfl⟩
  · intro hp
    unfold channelPut channelGet
    rw [hp]
    refine ⟨rfl, fun hq => ?_, fun h t hq => ?_⟩
    · rw [hq]; rfl
    · rw [hq]; rfl

/-- Witness for the amended C5 at concrete channel states. -/
theorem channel_contract_witness :
    (channelPut (⟨true, [2]⟩ : ChannelState Nat) 9
      = (.error (.Execution "Lock poisoned"), ⟨true, [2]⟩) ∧
     channelGet (⟨true, [2]⟩ : ChannelState Nat) = .panics) ∧
    channelGet (⟨false, [4, 5]⟩ : ChannelState Nat) = .ret 4 [5] := by
  refine ⟨(channel_contract Nat ⟨true, [2]⟩ 9).1 rfl, ?_⟩
  exact ((channel_contract Nat ⟨false, [4, 5]⟩ 9).2 rfl).2.2 4 [5] rfl

/-! ### DiskManager::new and the log path (claim C6) -/

/-- A filesystem path, split into its directory components and an
optional final file-name component (`none` models Rust paths whose
file_name() is None, e.g. a root path or one ending in dot-dot). -/
structure FsPath where
  dir : List String
  file : Option String
deriving DecidableEq

/-- Rust's Path::file_stem on a file name: the whole name when it
contains no dot or when its only dot is the leading character; otherwise
everything before the last dot. -/
def fileStem (name : String) : String :=
  if (name.toList.reverse.takeWhile (fun c => c ≠ '.')).length = name.toList.length then
    name
  else if name.toList.length
      - (name.toList.reverse.takeWhile (fun c => c ≠ '.')).length - 1 = 0 then
    name
  else
    ⟨name.toList.take (name.toList.length
      - (name.toList.reverse.takeWhile (fun c => c ≠ '.')).length - 1)⟩

/-- What DiskManager::new computes besides opening files. -/
structure DMFiles where
  db_file_name : FsPath
  log_file_name : FsPath
  state : DMState
deriving DecidableEq

/-- DiskManager::new: fails with Invalid when the path has no usable file
stem; otherwise derives the log path as format!("{stem}.log") — a bare
relative path whose directory part is empty (it resolves against the
current working directory, not against the data file's directory) — and
opens/creates both files, pre-extending the data file.  (The source can
also return Invalid for a non-UTF-8 stem; Lean strings are always valid
Unicode, so that case has no model.) -/
def DiskManager_new (PS defaultCap : Nat) (db_file_name : FsPath) :
    Except Exception DMFiles :=
  match db_file_name.file with
  | none => .error (.Invalid "Invalid filename")
  | some name =>
    .ok { db_file_name := db_file_name
          log_file_name := { dir := [], file := some (fileStem name ++ ".log") }
          state := initDM PS defaultCap }

/-- Claim C6 (code bug evidence): for the data path data/mydb.db the
constructor succeeds but places the log at the bare path mydb.log, whose
directory differs from the data file's directory — the log is not
co-located.  The Invalid case does fire exactly on a stem-less path. -/
theorem new_log_path_not_colocated :
    DiskManager_new 2 1 ⟨["data"], some "mydb.db"⟩ =
      .ok { db_file_name := ⟨["data"], some "mydb.db"⟩
            log_file_name := ⟨[], some "mydb.log"⟩
            state := initDM 2 1 } ∧
    (⟨[], some "mydb.log"⟩ : FsPath).dir ≠ (⟨["data"], some "mydb.db"⟩ : FsPath).dir ∧
    DiskManager_new 2 1 ⟨["data"], none⟩ = .error (.Invalid "Invalid filename") := by
  refine ⟨?_, by decide, rfl⟩
  rfl

/-! ### Disk scheduler worker (src/storage/disk/disk_scheduler.rs) -/

inductive RequestType where
  | Read
  | Write
deriving DecidableEq

/-- A disk request: the kind, the PAGE_SIZE bytes behind the raw data
pointer, and the target page; the completion sink is modelled by the
`sent` output of the worker step. -/
structure DiskRequest where
  request_type : RequestType
  data : List Nat
  page_id : Nat
deriving DecidableEq

/-- Result of one iteration of the worker loop: the disk manager state,
the contents of the caller's buffer, and the booleans sent on the
request's completion sink. -/
structure WorkerStep where
  dm : DMState
  buffer : List Nat
  sent : List Bool
deriving DecidableEq

/-- One iteration of DiskScheduler::start_worker_thread on an actual
request: dispatance to read_page or write_page, then send result.is_ok()
on the callback (the send's own result is discarded). -/
def processRequest (PS : Nat) (dm : DMState) (req : DiskRequest) (ioOk : Bool) :
    WorkerStep :=
  match req.request_type with
  | .Read =>
    match read_page PS dm req.page_id req.data with
    | .ok buf => { dm := dm, buffer := buf, sent := [true] }
    | .error _ => { dm := dm, buffer := req.data, sent := [false] }
  | .Write =>
    { dm := (write_page PS dm req.page_id req.data ioOk).2
      buffer := req.data
      sent := [exceptIsOk (write_page PS dm req.page_id req.data ioOk).1] }

/-- The worker loop over a queue of actual requests (the sentinel `none`
ends the loop in the source; here the list simply ends), collecting per
request the booleans sent on its completion sink. -/
def runWorker (PS : Nat) (dm : DMState) : List (DiskRequest × Bool) → DMState × List (List Bool)
  | [] => (dm, [])
  | (req, ioOk) :: rest =>
    ((runWorker PS (processRequest PS dm req ioOk).dm rest).1,
     (processRequest PS dm req ioOk).sent ::
       (runWorker PS (processRequest PS dm req ioOk).dm rest).2)

/-- Claim C9: each dequeued request gets exactly one boolean on its
completion sink, true exactly when the dispatched read_page/write_page
returned Ok (the error cause is collapsed to false); over a whole queue
the worker emits exactly one such singleton per request. -/
theorem worker_completion (PS : Nat) (dm : DMState) (req : DiskRequest) (ioOk : Bool)
    (reqs : List (DiskRequest × Bool)) :
    (processRequest PS dm req ioOk).sent.length = 1 ∧
    ((processRequest PS dm req ioOk).sent = [true] ↔
      (match req.request_type with
       | RequestType.Read => exceptIsOk (read_page PS dm req.page_id req.data)
       | RequestType.Write =>
         exceptIsOk (write_page PS dm req.page_id req.data ioOk).1) = true) ∧
    (runWorker PS dm reqs).2.length = reqs.length ∧
    (∀ sent ∈ (runWorker PS dm reqs).2, sent.length = 1) := by
  refine ⟨?_, ?_, ?_, ?_⟩
  · cases hty : req.request_type <;> simp only [processRequest, hty]
    · cases hr : read_page PS dm req.page_id req.data <;> simp
    · simp
  · cases hty : req.request_type <;> simp only [processRequest, hty]
    · cases hr : read_page PS dm req.page_id req.data <;> simp [exceptIsOk, hr]
    · cases hw : (write_page PS dm req.page_id req.data ioOk).1 <;> simp [exceptIsOk, hw]
  · clear req ioOk
    induction reqs generalizing dm with
    | nil => rfl
    | cons r rest ih =>
      obtain ⟨req, ioOk⟩ := r
      simp only [runWorker, List.length_cons]
      rw [ih]
  · clear req ioOk
    induction reqs generalizing dm with
    | nil => intro sent h; simp [runWorker] at h
    | cons r rest ih =>
      obtain ⟨req, ioOk⟩ := r
      intro sent h
      simp only [runWorker, List.mem_cons] at h
      rcases h with rfl | h
      · cases hty : req.request_type <;> simp only [processRequest, hty]
        · cases hr : read_page PS dm req.page_id req.data <;> simp
        · simp
      · exact ih _ _ h

/-! ### Claim C2: the offset invariants of the disk manager -/

theorem alGet_some_mem {l : List (Nat × β)} {k : Nat} {v : β}
    (h : alGet l k = some v) : (k, v) ∈ l := by
  induction l with
  | nil => simp [alGet] at h
  | cons e t ih =>
    obtain ⟨a, w⟩ := e
    by_cases ha : a = k
    · subst ha
      have hw : w = v := by
        have hx : alGet ((a, w) :: t) a = some w := by simp [alGet]
        rw [hx] at h
        exact Option.some_inj.1 h
      subst hw
      exact List.mem_cons_self _ _
    · simp only [alGet, if_neg ha] at h
      exact List.mem_cons_of_mem _ (ih h)

theorem alGet_none_iff {l : List (Nat × β)} {k : Nat} :
    alGet l k = none ↔ k ∉ alKeys l := by
  rw [alGet_eq_none_iff]
  constructor
  · intro h hk
    obtain ⟨v, hv⟩ := mem_alKeys_iff.1 hk
    exact h (k, v) hv rfl
  · intro h e he hk
    exact h (mem_alKeys_iff.2 ⟨e.2, by rw [← hk]; exact he⟩)

theorem alErase_eq_self_of_none {l : List (Nat × β)} {k : Nat}
    (h : alGet l k = none) : alErase l k = l := by
  induction l with
  | nil => rfl
  | cons e t ih =>
    obtain ⟨a, w⟩ := e
    by_cases ha : a = k
    · subst ha; simp [alGet] at h
    · simp only [alGet, if_neg ha] at h
      simp [alErase, ha, ih h]

theorem alErase_sublist (l : List (Nat × β)) (k : Nat) : List.Sublist (alErase l k) l := by
  induction l with
  | nil => exact List.Sublist.refl _
  | cons e t ih =>
    obtain ⟨a, w⟩ := e
    by_cases ha : a = k
    · simpa [alErase, ha] using ih.cons (a, w)
    · simpa [alErase, ha] using ih.cons₂ (a, w)

theorem alKeys_erase_sublist (l : List (Nat × β)) (k : Nat) :
    List.Sublist (alKeys (alErase l k)) (alKeys l) :=
  List.Sublist.map _ (alErase_sublist l k)

theorem alKeys_insert_nodup {l : List (Nat × β)} {k : Nat} {v : β}
    (hnd : (alKeys l).Nodup) : (alKeys (alInsert l k v)).Nodup := by
  show (alKeys ((k, v) :: alErase l k)).Nodup
  rw [show alKeys ((k, v) :: alErase l k) = k :: alKeys (alErase l k) from rfl,
    List.nodup_cons]
  exact ⟨fun hm => (mem_alKeys_erase.1 hm).1 rfl,
    List.Nodup.sublist (alKeys_erase_sublist l k) hnd⟩

theorem perm_insert_of_get_some {l : List (Nat × β)} {k : Nat} {v : β}
    (hnd : (alKeys l).Nodup) (h : alGet l k = some v) :
    l.Perm (alInsert l k v) := by
  show l.Perm ((k, v) :: alErase l k)
  induction l with
  | nil => simp [alGet] at h
  | cons e t ih =>
    obtain ⟨a, w⟩ := e
    rw [show alKeys ((a, w) :: t) = a :: alKeys t from rfl, List.nodup_cons] at hnd
    by_cases ha : a = k
    · subst ha
      have hw : w = v := by
        have hx : alGet ((a, w) :: t) a = some w := by simp [alGet]
        rw [hx] at h
        exact Option.some_inj.1 h
      subst hw
      have ht : alGet t a = none := alGet_none_iff.2 hnd.1
      rw [show alErase ((a, w) :: t) a = alErase t a from by simp [alErase],
        alErase_eq_self_of_none ht]
    · simp only [alGet, if_neg ha] at h
      have hperm := ih hnd.2 h
      have h2 : ((a, w) :: t).Perm ((a, w) :: (k, v) :: alErase t k) := hperm.cons _
      have h3 : ((a, w) :: (k, v) :: alErase t k).Perm
          ((k, v) :: (a, w) :: alErase t k) := List.Perm.swap _ _ _
      rw [show alErase ((a, w) :: t) k = (a, w) :: alErase t k from by simp [alErase, ha]]
      exact h2.trans h3

/-- The operations of claim C2, each with the inputs it needs. -/
inductive DMOp where
  | writeOp (p : Nat) (data : List Nat) (ioOk : Bool)
  | readOp (p : Nat) (buf : List Nat)
  | deleteOp (p : Nat)
  | allocOp

/-- Run one completed operation; read_page never mutates the state. -/
def dmStep (PS : Nat) (s : DMState) : DMOp → DMState
  | .writeOp p d ioOk => (write_page PS s p d ioOk).2
  | .readOp _ _ => s
  | .deleteOp p => (delete_page s p).2
  | .allocOp => (allocate_page PS s).2

/-- Run a sequence of operations from a fresh manager. -/
def runDM (PS D : Nat) (ops : List DMOp) : DMState :=
  ops.foldl (dmStep PS) (initDM PS D)

/-- Every offset reachable from the metadata: the mapped ones followed by
the free pool. -/
def dmOffsets (s : DMState) : List Nat :=
  alValues s.meta.pages ++ s.meta.free_slots

/-- The inductive invariant of the metadata. -/
def DMInv (PS : Nat) (s : DMState) : Prop :=
  0 < s.meta.page_capacity ∧
  s.meta.page_count ≤ s.meta.page_capacity ∧
  (alKeys s.meta.pages).Nodup ∧
  (dmOffsets s).Nodup ∧
  ∀ o ∈ dmOffsets s, o % PS = 0 ∧ o < s.meta.page_count * PS

theorem perm_append_concat (xs ys : List Nat) (o : Nat) :
    (xs ++ (ys ++ [o])).Perm (o :: (xs ++ ys)) := by
  rw [show xs ++ (ys ++ [o]) = (xs ++ ys) ++ [o] from (List.append_assoc xs ys [o]).symm]
  exact List.perm_append_comm

theorem allocate_page_concat_eq (PS : Nat) (s : DMState) (fs : List Nat) (o : Nat)
    (hfs : s.meta.free_slots = fs ++ [o]) :
    allocate_page PS s = (o, { s with meta := { s.meta with free_slots := fs } }) :=
  (allocate_page_spec PS s).1 fs o hfs

theorem allocate_page_nil_eq (PS : Nat) (s : DMState)
    (hfs : s.meta.free_slots = []) :
    allocate_page PS s = (s.meta.page_count * PS,
      if s.meta.page_count + 1 > s.meta.page_capacity then
        { s with
          meta := { s.meta with
            page_count := s.meta.page_count + 1
            page_capacity := s.meta.page_capacity * 2 }
          dbFile := setLen s.dbFile (s.meta.page_capacity * 2 * PS) }
      else
        { s with meta := { s.meta with page_count := s.meta.page_count + 1 } }) := by
  unfold allocate_page
  rw [hfs]
  simp only [List.getLast?_nil]
  by_cases hov : s.meta.page_count + 1 > s.meta.page_capacity
  · rw [if_pos hov, if_pos hov]
  · rw [if_neg hov, if_neg hov]

/-- allocate_page preserves the invariant, and the offset it returns is
page-aligned, within the counter bound, and not reachable from the
post-state metadata. -/
theorem allocate_page_inv (PS : Nat) (hPS : 0 < PS) (s : DMState) (h : DMInv PS s) :
    DMInv PS (allocate_page PS s).2 ∧
    (allocate_page PS s).1 ∉ dmOffsets (allocate_page PS s).2 ∧
    (allocate_page PS s).1 % PS = 0 ∧
    (allocate_page PS s).1 < (allocate_page PS s).2.meta.page_count * PS ∧
    (allocate_page PS s).2.meta.pages = s.meta.pages ∧
    s.meta.page_count ≤ (allocate_page PS s).2.meta.page_count := by
  obtain ⟨hcap, hpc, hknd, hnd, hmem⟩ := h
  have hmul : (s.meta.page_count + 1) * PS = s.meta.page_count * PS + PS := by ring
  rcases List.eq_nil_or_concat s.meta.free_slots with hfs | ⟨fs, o, hfs⟩
  all_goals try rw [List.concat_eq_append] at hfs
  · rw [allocate_page_nil_eq PS s hfs]
    by_cases hov : s.meta.page_count + 1 > s.meta.page_capacity
    · rw [if_pos hov]
      dsimp only [DMInv, dmOffsets]
      refine ⟨⟨by omega, by omega, hknd, hnd, ?_⟩, ?_, ?_, ?_, rfl, ?_⟩
      · intro q hq
        obtain ⟨h1, h2⟩ := hmem q hq
        exact ⟨h1, by omega⟩
      · intro hmem'
        exact absurd (hmem _ hmem').2 (lt_irrefl _)
      · exact Nat.mul_mod_left _ _
      · omega
      · exact Nat.le_succ _
    · rw [if_neg hov]
      dsimp only [DMInv, dmOffsets]
      refine ⟨⟨hcap, by omega, hknd, hnd, ?_⟩, ?_, ?_, ?_, rfl, ?_⟩
      · intro q hq
        obtain ⟨h1, h2⟩ := hmem q hq
        exact ⟨h1, by omega⟩
      · intro hmem'
        exact absurd (hmem _ hmem').2 (lt_irrefl _)
      · exact Nat.mul_mod_left _ _
      · omega
      · exact Nat.le_succ _
  · rw [allocate_page_concat_eq PS s fs o hfs]
    dsimp only [DMInv, dmOffsets]
    have hperm : (dmOffsets s).Perm (o :: (alValues s.meta.pages ++ fs)) := by
      rw [dmOffsets, hfs]
      exact perm_append_concat _ _ _
    have hnd2 : (o :: (alValues s.meta.pages ++ fs)).Nodup := hperm.nodup hnd
    have homem : o ∈ dmOffsets s := hperm.mem_iff.2 (List.mem_cons_self _ _)
    refine ⟨⟨hcap, hpc, hknd, ?_, ?_⟩, ?_, ?_, ?_, rfl, le_refl _⟩
    · exact (List.nodup_cons.1 hnd2).2
    · intro q hq
      exact hmem q (hperm.mem_iff.2 (List.mem_cons_of_mem _ hq))
    · exact (List.nodup_cons.1 hnd2).1
    · exact (hmem o homem).1
    · exact (hmem o homem).2

theorem delete_page_some_eq (s : DMState) (p off : Nat)
    (h : alGet s.meta.pages p = some off) :
    delete_page s p = (.ok (), { s with meta := { s.meta with
      pages := alErase s.meta.pages p
      free_slots := s.meta.free_slots ++ [off]
      num_deletes := s.meta.num_deletes + 1 } }) := by
  unfold delete_page
  rw [h]

theorem delete_page_none_eq (s : DMState) (p : Nat)
    (h : alGet s.meta.pages p = none) :
    delete_page s p = (.ok (), s) := by
  unfold delete_page
  rw [h]

theorem write_page_existing_ok_eq (PS : Nat) (s : DMState) (p : Nat) (d : List Nat)
    (off : Nat) (h : alGet s.meta.pages p = some off) :
    write_page PS s p d true = (.ok (), { s with
      dbFile := writeAt s.dbFile off d
      meta := { s.meta with
        pages := alInsert s.meta.pages p off
        num_writes := s.meta.num_writes + 1 } }) := by
  unfold write_page
  rw [h]
  rfl

theorem write_page_existing_err_eq (PS : Nat) (s : DMState) (p : Nat) (d : List Nat)
    (off : Nat) (h : alGet s.meta.pages p = some off) :
    write_page PS s p d false = (.error (.IOError "Internal I/O subsystem error"), s) := by
  unfold write_page
  rw [h]
  rfl

/-- The inductive invariant survives each completed operation. -/
theorem dmInv_step (PS : Nat) (hPS : 0 < PS) (s : DMState) (h : DMInv PS s)
    (op : DMOp) : DMInv PS (dmStep PS s op) := by
  obtain ⟨hcap, hpc, hknd, hnd, hmem⟩ := h
  cases op with
  | readOp p buf => exact ⟨hcap, hpc, hknd, hnd, hmem⟩
  | allocOp =>
    exact (allocate_page_inv PS hPS s ⟨hcap, hpc, hknd, hnd, hmem⟩).1
  | deleteOp p =>
    show DMInv PS (delete_page s p).2
    cases hget : alGet s.meta.pages p with
    | none => rw [delete_page_none_eq s p hget]; exact ⟨hcap, hpc, hknd, hnd, hmem⟩
    | some off =>
      rw [delete_page_some_eq s p off hget]
      have hperm : (dmOffsets s).Perm
          (alValues (alErase s.meta.pages p) ++ (s.meta.free_slots ++ [off])) := by
        have h1 : s.meta.pages.Perm ((p, off) :: alErase s.meta.pages p) := by
          simpa [alInsert] using perm_insert_of_get_some hknd hget
        have h2 : (alValues s.meta.pages).Perm
            (off :: alValues (alErase s.meta.pages p)) := by
          simpa [alValues] using h1.map (fun e => e.2)
        have h3 : (dmOffsets s).Perm
            ((off :: alValues (alErase s.meta.pages p)) ++ s.meta.free_slots) :=
          h2.append_right _
        rw [show (off :: alValues (alErase s.meta.pages p)) ++ s.meta.free_slots =
            off :: (alValues (alErase s.meta.pages p) ++ s.meta.free_slots) from rfl] at h3
        exact h3.trans (perm_append_concat _ _ _).symm
      refine ⟨hcap, hpc, ?_, ?_, ?_⟩
      · exact List.Nodup.sublist (alKeys_erase_sublist _ _) hknd
      · exact hperm.nodup hnd
      · intro q hq
        exact hmem q (hperm.mem_iff.2 hq)
  | writeOp p d ioOk =>
    show DMInv PS (write_page PS s p d ioOk).2
    cases hget : alGet s.meta.pages p with
    | some off =>
      cases ioOk with
      | false =>
        rw [write_page_existing_err_eq PS s p d off hget]
        exact ⟨hcap, hpc, hknd, hnd, hmem⟩
      | true =>
        rw [write_page_existing_ok_eq PS s p d off hget]
        have h1 : s.meta.pages.Perm (alInsert s.meta.pages p off) :=
          perm_insert_of_get_some hknd hget
        have h2 : (alValues s.meta.pages).Perm (alValues (alInsert s.meta.pages p off)) := by
          simpa [alValues] using h1.map (fun e => e.2)
        have hperm : (dmOffsets s).Perm
            (alValues (alInsert s.meta.pages p off) ++ s.meta.free_slots) :=
          h2.append_right _
        refine ⟨hcap, hpc, alKeys_insert_nodup hknd, hperm.nodup hnd, ?_⟩
        intro q hq
        exact hmem q (hperm.mem_iff.2 hq)
    | none =>
      obtain ⟨⟨hcap1, hpc1, hknd1, hnd1, hmem1⟩, hfresh, hmod, hlt, hpages1, hmono⟩ :=
        allocate_page_inv PS hPS s ⟨hcap, hpc, hknd, hnd, hmem⟩
      cases ioOk with
      | true =>
        rw [write_page_fresh_ok_eq PS s p d hget]
        have hget1 : alGet (allocate_page PS s).2.meta.pages p = none := by
          rw [hpages1]; exact hget
        have hins : alInsert (allocate_page PS s).2.meta.pages p (allocate_page PS s).1 =
            (p, (allocate_page PS s).1) :: (allocate_page PS s).2.meta.pages := by
          show (p, (allocate_page PS s).1) :: alErase (allocate_page PS s).2.meta.pages p = _
          rw [alErase_eq_self_of_none hget1]
        dsimp only [DMInv, dmOffsets]
        refine ⟨hcap1, hpc1, alKeys_insert_nodup hknd1, ?_, ?_⟩
        · rw [hins]
          rw [show alValues ((p, (allocate_page PS s).1) ::
              (allocate_page PS s).2.meta.pages) =
            (allocate_page PS s).1 :: alValues (allocate_page PS s).2.meta.pages from rfl]
          rw [List.cons_append, List.nodup_cons]
          exact ⟨hfresh, hnd1⟩
        · intro q hq
          rw [hins] at hq
          rw [show alValues ((p, (allocate_page PS s).1) ::
              (allocate_page PS s).2.meta.pages) =
            (allocate_page PS s).1 :: alValues (allocate_page PS s).2.meta.pages from rfl,
            List.cons_append] at hq
          rcases List.mem_cons.1 hq with rfl | hq2
          · exact ⟨hmod, hlt⟩
          · exact hmem1 q hq2
      | false =>
        rw [write_page_fresh_err_eq PS s p d hget]
        dsimp only [DMInv, dmOffsets]
        have hperm : (alValues (allocate_page PS s).2.meta.pages ++
            ((allocate_page PS s).2.meta.free_slots ++ [(allocate_page PS s).1])).Perm
            ((allocate_page PS s).1 :: dmOffsets (allocate_page PS s).2) :=
          perm_append_concat _ _ _
        refine ⟨hcap1, hpc1, hknd1, ?_, ?_⟩
        · exact hperm.symm.nodup (List.nodup_cons.2 ⟨hfresh, hnd1⟩)
        · intro q hq
          rcases List.mem_cons.1 (hperm.mem_iff.1 hq) with rfl | hq2
          · exact ⟨hmod, hlt⟩
          · exact hmem1 q hq2

theorem dmInv_init (PS D : Nat) (hD : 0 < D) : DMInv PS (initDM PS D) := by
  refine ⟨hD, Nat.zero_le _, ?_, ?_, ?_⟩ <;>
    simp [initDM, alKeys, dmOffsets, alValues]

theorem dmInv_run (PS D : Nat) (hPS : 0 < PS) (hD : 0 < D) (ops : List DMOp) :
    DMInv PS (runDM PS D ops) := by
  suffices h : ∀ s, DMInv PS s → DMInv PS (ops.foldl (dmStep PS) s) from
    h _ (dmInv_init PS D hD)
  intro s hs
  induction ops generalizing s with
  | nil => exact hs
  | cons op rest ih => exact ih _ (dmInv_step PS hPS s hs op)

/-- Claim C2: after any sequence of completed write_page, read_page,
delete_page and allocate_page operations from a fresh manager, the mapped
offsets are disjoint from free_slots, every reachable offset is a
multiple of the page size and below page_capacity times the page size,
and no two page ids map to the same offset. -/
theorem dm_offset_invariants (PS D : Nat) (hPS : 0 < PS) (hD : 0 < D)
    (ops : List DMOp) :
    (∀ o ∈ alValues (runDM PS D ops).meta.pages,
      o ∉ (runDM PS D ops).meta.free_slots) ∧
    (∀ o ∈ dmOffsets (runDM PS D ops),
      o % PS = 0 ∧ o < (runDM PS D ops).meta.page_capacity * PS) ∧
    (∀ k1 k2 v, k1 ≠ k2 → alGet (runDM PS D ops).meta.pages k1 = some v →
      ¬ alGet (runDM PS D ops).meta.pages k2 = some v) := by
  obtain ⟨hcap, hpc, hknd, hnd, hmem⟩ := dmInv_run PS D hPS hD ops
  refine ⟨?_, ?_, ?_⟩
  · intro o ho hfree
    exact (List.nodup_append.1 hnd).2.2 ho hfree
  · intro o ho
    obtain ⟨h1, h2⟩ := hmem o ho
    exact ⟨h1, lt_of_lt_of_le h2 (Nat.mul_le_mul_right _ hpc)⟩
  · intro k1 k2 v hne h1 h2
    have hm1 := alGet_some_mem h1
    have hm2 := alGet_some_mem h2
    have hvnd : ((runDM PS D ops).meta.pages.map (fun e => e.2)).Nodup :=
      (List.nodup_append.1 hnd).1
    have heq := List.inj_on_of_nodup_map hvnd hm1 hm2 rfl
    exact hne (congrArg Prod.fst heq)

/-- Witness for C2 on a concrete operation sequence exercising write,
delete, reuse, a failed write and a bare allocation. -/
theorem dm_offset_invariants_witness :
    (0 : Nat) < 2 ∧ (0 : Nat) < 1 ∧
    ((∀ o ∈ alValues (runDM 2 1 [DMOp.writeOp 1 [7, 7] true, DMOp.deleteOp 1,
        DMOp.writeOp 2 [8, 8] true, DMOp.writeOp 3 [9, 9] false,
        DMOp.allocOp, DMOp.readOp 2 [0, 0]]).meta.pages,
      o ∉ (runDM 2 1 [DMOp.writeOp 1 [7, 7] true, DMOp.deleteOp 1,
        DMOp.writeOp 2 [8, 8] true, DMOp.writeOp 3 [9, 9] false,
        DMOp.allocOp, DMOp.readOp 2 [0, 0]]).meta.free_slots) ∧
    (∀ o ∈ dmOffsets (runDM 2 1 [DMOp.writeOp 1 [7, 7] true, DMOp.deleteOp 1,
        DMOp.writeOp 2 [8, 8] true, DMOp.writeOp 3 [9, 9] false,
        DMOp.allocOp, DMOp.readOp 2 [0, 0]]),
      o % 2 = 0 ∧ o < (runDM 2 1 [DMOp.writeOp 1 [7, 7] true, DMOp.deleteOp 1,
        DMOp.writeOp 2 [8, 8] true, DMOp.writeOp 3 [9, 9] false,
        DMOp.allocOp, DMOp.readOp 2 [0, 0]]).meta.page_capacity * 2) ∧
    (∀ k1 k2 v, k1 ≠ k2 →
      alGet (runDM 2 1 [DMOp.writeOp 1 [7, 7] true, DMOp.deleteOp 1,
        DMOp.writeOp 2 [8, 8] true, DMOp.writeOp 3 [9, 9] false,
        DMOp.allocOp, DMOp.readOp 2 [0, 0]]).meta.pages k1 = some v →
      ¬ alGet (runDM 2 1 [DMOp.writeOp 1 [7, 7] true, DMOp.deleteOp 1,
        DMOp.writeOp 2 [8, 8] true, DMOp.writeOp 3 [9, 9] false,
        DMOp.allocOp, DMOp.readOp 2 [0, 0]]).meta.pages k2 = some v)) :=
  ⟨by decide, by decide,
   dm_offset_invariants 2 1 (by decide) (by decide)
     [DMOp.writeOp 1 [7, 7] true, DMOp.deleteOp 1,
      DMOp.writeOp 2 [8, 8] true, DMOp.writeOp 3 [9, 9] false,
      DMOp.allocOp, DMOp.readOp 2 [0, 0]]⟩

/-! ### ARC replacer (src/buffer/arc_replacer.rs)

The source file declares only the data structure; the operations are not
part of the sources.  Following the specification (which states that it
formalizes the conventional ARC algorithm and that implementers should
adopt it), the operations below are modelled from the spec.  All four
page-id lists are kept with their LRU end at the head and their MRU end
at the back. -/

/-- The per-page node of the replacer's page table. -/
structure Node where
  frame_id : Nat
  is_evictable : Bool
deriving DecidableEq

/-- The ARC replacer state, as declared in the source. -/
structure ArcReplacer where
  replacer_size : Nat
  mru_target_size : Nat
  curr_size : Nat
  mru : List Nat
  mfu : List Nat
  mru_ghost : List Nat
  mfu_ghost : List Nat
  page_table : List (Nat × Node)
deriving DecidableEq

/-- Number of evictable frames in the page table (what size() reports and
curr_size caches). -/
def ptEvictableCount (pt : List (Nat × Node)) : Nat :=
  (pt.filter (fun e => e.2.is_evictable)).length

/-- Refresh the cached curr_size after an operation. -/
def withCount (s : ArcReplacer) : ArcReplacer :=
  { s with curr_size := ptEvictableCount s.page_table }

/-- The evictable flag currently recorded for a page (false if absent). -/
def ptFlag (pt : List (Nat × Node)) (p : Nat) : Bool :=
  match alGet pt p with
  | some n => n.is_evictable
  | none => false

/-- All four lists in one: resident lists then ghost lists. -/
def arcLists (s : ArcReplacer) : List Nat :=
  s.mru ++ s.mfu ++ s.mru_ghost ++ s.mfu_ghost

/-- Total number of tracked page ids. -/
def arcTotal (s : ArcReplacer) : Nat :=
  s.mru.length + s.mfu.length + s.mru_ghost.length + s.mfu_ghost.length

/-- Modelled from the spec: the conventional ARC REPLACE step (the
operations themselves are missing from the sources).  When the recency
list is non-empty and over target (or at target on an mfu_ghost hit), its
LRU page moves to the mru_ghost MRU end; otherwise the frequency list's
LRU page moves to the mfu_ghost MRU end; the victim leaves the page
table. -/
def arcReplace (s : ArcReplacer) (inMfuGhost : Bool) : ArcReplacer :=
  if 0 < s.mru.length ∧ (s.mru_target_size < s.mru.length ∨
      (inMfuGhost = true ∧ s.mru.length = s.mru_target_size)) then
    match s.mru with
    | x :: rest =>
      { s with
        mru := rest
        mru_ghost := s.mru_ghost ++ [x]
        page_table := alErase s.page_table x }
    | [] => s
  else
    match s.mfu with
    | y :: rest =>
      { s with
        mfu := rest
        mfu_ghost := s.mfu_ghost ++ [y]
        page_table := alErase s.page_table y }
    | [] => s

/-- Insert a revived or promoted page at the MRU end of mfu. -/
def insertMfu (s : ArcReplacer) (p fid : Nat) : ArcReplacer :=
  { s with
    mfu := s.mfu ++ [p]
    page_table := alInsert s.page_table p ⟨fid, false⟩ }

/-- Insert a new page at the MRU end of mru. -/
def insertMru (s : ArcReplacer) (p fid : Nat) : ArcReplacer :=
  { s with
    mru := s.mru ++ [p]
    page_table := alInsert s.page_table p ⟨fid, false⟩ }

/-- Modelled from the spec: a ghost hit adapts mru_target_size by
delta = max(1, |other ghost| / |this ghost|) clamped to [0, capacity],
removes the id from its ghost list, runs REPLACE and revives the page at
the MRU end of mfu. -/
def arcGhostHit (s : ArcReplacer) (p fid : Nat) : Bool → ArcReplacer
  | true =>
    insertMfu (arcReplace { s with
        mru_target_size := s.mru_target_size -
          max 1 (s.mru_ghost.length / s.mfu_ghost.length)
        mfu_ghost := s.mfu_ghost.erase p } true) p fid
  | false =>
    insertMfu (arcReplace { s with
        mru_target_size := min s.replacer_size (s.mru_target_size +
          max 1 (s.mfu_ghost.length / s.mru_ghost.length))
        mru_ghost := s.mru_ghost.erase p } false) p fid

/-- Modelled from the spec: a complete miss (conventional ARC case IV):
if |mru| + |mru_ghost| is at capacity, drop the mru_ghost LRU and REPLACE
(or, with an empty mru_ghost, drop the mru LRU outright); otherwise, when
the directory is at least at capacity, drop the mfu_ghost LRU if the
directory is full and REPLACE; finally insert at the MRU end of mru. -/
def arcMissInsert (s : ArcReplacer) (p fid : Nat) : ArcReplacer :=
  if s.mru.length + s.mru_ghost.length = s.replacer_size then
    match s.mru_ghost with
    | _ :: grest =>
      insertMru (arcReplace { s with mru_ghost := grest } false) p fid
    | [] =>
      match s.mru with
      | x :: rest =>
        insertMru { s with
          mru := rest
          page_table := alErase s.page_table x } p fid
      | [] => insertMru s p fid
  else if s.replacer_size ≤ arcTotal s then
    insertMru (arcReplace
      (if arcTotal s = 2 * s.replacer_size then
        { s with mfu_ghost := s.mfu_ghost.drop 1 }
      else s) false) p fid
  else
    insertMru s p fid

/-- Modelled from the spec: record_access moves the page to the MRU end
of the appropriate list — a resident hit promotes to mfu, a ghost hit
adapts the target and revives into mfu, an unknown page is inserted into
mru with capacity maintained by evicting from mru / mru_ghost. -/
def record_access (s : ArcReplacer) (p fid : Nat) : ArcReplacer :=
  withCount (
    if p ∈ s.mru then
      { s with
        mru := s.mru.erase p
        mfu := s.mfu ++ [p]
        page_table := alInsert s.page_table p ⟨fid, ptFlag s.page_table p⟩ }
    else if p ∈ s.mfu then
      { s with
        mfu := s.mfu.erase p ++ [p]
        page_table := alInsert s.page_table p ⟨fid, ptFlag s.page_table p⟩ }
    else if p ∈ s.mru_ghost then
      arcGhostHit s p fid false
    else if p ∈ s.mfu_ghost then
      arcGhostHit s p fid true
    else
      arcMissInsert s p fid)

/-- Modelled from the spec: set_evictable flips the flag of a resident
frame and is silent on an absent id. -/
def set_evictable (s : ArcReplacer) (p : Nat) (ev : Bool) : ArcReplacer :=
  withCount (
    match alGet s.page_table p with
    | some n => { s with page_table := alInsert s.page_table p ⟨n.frame_id, ev⟩ }
    | none => s)

/-- First evictable page scanning from the LRU end of a list. -/
def findEvictable (pt : List (Nat × Node)) : List Nat → Option Nat
  | [] => none
  | p :: rest =>
    match alGet pt p with
    | some n => if n.is_evictable then some p else findEvictable pt rest
    | none => findEvictable pt rest

/-- Move an evicted resident page onto the matching ghost list and drop
its page-table entry. -/
def evictFrom (s : ArcReplacer) (p : Nat) (fromMru : Bool) : ArcReplacer :=
  if fromMru then
    { s with
      mru := s.mru.erase p
      mru_ghost := s.mru_ghost ++ [p]
      page_table := alErase s.page_table p }
  else
    { s with
      mfu := s.mfu.erase p
      mfu_ghost := s.mfu_ghost ++ [p]
      page_table := alErase s.page_table p }

/-- Modelled from the spec: victim selection for evict — prefer the LRU
end of mru when |mru| > mru_target_size (falling back to mfu), otherwise
the reverse; the boolean records which resident list the victim came
from. -/
def evictPick (s : ArcReplacer) : Option (Nat × Bool) :=
  if s.mru_target_size < s.mru.length then
    match findEvictable s.page_table s.mru with
    | some q => some (q, true)
    | none => (findEvictable s.page_table s.mfu).map (fun q => (q, false))
  else
    match findEvictable s.page_table s.mfu with
    | some q => some (q, false)
    | none => (findEvictable s.page_table s.mru).map (fun q => (q, true))

/-- Modelled from the spec: evict returns the victim's frame id, moves
its page id to the appropriate ghost list and removes its page-table
entry; None when nothing is evictable. -/
def evict (s : ArcReplacer) : Option Nat × ArcReplacer :=
  match evictPick s with
  | none => (none, s)
  | some (p, fromMru) =>
    ((alGet s.page_table p).map Node.frame_id, withCount (evictFrom s p fromMru))

/-- Modelled from the spec: remove evicts unconditionally with no ghost
tracking. -/
def removePage (s : ArcReplacer) (p : Nat) : ArcReplacer :=
  withCount (
    if p ∈ s.mru then
      { s with
        mru := s.mru.erase p
        page_table := alErase s.page_table p }
    else if p ∈ s.mfu then
      { s with
        mfu := s.mfu.erase p
        page_table := alErase s.page_table p }
    else s)

/-- Modelled from the spec: a fresh replacer for a frame capacity. -/
def arcInit (c : Nat) : ArcReplacer :=
  { replacer_size := c, mru_target_size := 0, curr_size := 0
    mru := [], mfu := [], mru_ghost := [], mfu_ghost := [], page_table := [] }

/-- The public replacer operations of claim C10. -/
inductive ArcOp where
  | access (p fid : Nat)
  | setEv (p : Nat) (ev : Bool)
  | evictOp
  | removeOp (p : Nat)

def arcStep (s : ArcReplacer) : ArcOp → ArcReplacer
  | .access p fid => record_access s p fid
  | .setEv p ev => set_evictable s p ev
  | .evictOp => (evict s).2
  | .removeOp p => removePage s p

def arcRun (c : Nat) (ops : List ArcOp) : ArcReplacer :=
  ops.foldl arcStep (arcInit c)

/-- The invariants of claim C10 (the key-set equality is phrased as the
two bounded inclusions). -/
def ArcInv (s : ArcReplacer) : Prop :=
  s.mru.length + s.mfu.length ≤ s.replacer_size ∧
  s.mru.length + s.mru_ghost.length ≤ s.replacer_size ∧
  s.mru.length + s.mfu.length + s.mru_ghost.length + s.mfu_ghost.length
    ≤ 2 * s.replacer_size ∧
  s.mru_target_size ≤ s.replacer_size ∧
  (∀ q ∈ alKeys s.page_table, q ∈ s.mru ∨ q ∈ s.mfu) ∧
  (∀ q ∈ s.mru, q ∈ alKeys s.page_table) ∧
  (∀ q ∈ s.mfu, q ∈ alKeys s.page_table)

/-- The strengthened inductive invariant: the four lists never share a
page id and never repeat one. -/
def ArcWF (s : ArcReplacer) : Prop :=
  ArcInv s ∧ (arcLists s).Nodup

/-! ### List permutation toolkit for the ARC proofs -/

theorem ms_perm {l₁ l₂ : List Nat} (h : (l₁ : Multiset Nat) = (l₂ : Multiset Nat)) :
    l₁.Perm l₂ :=
  Multiset.coe_eq_coe.1 h

theorem ms_cons_erase {A : List Nat} {p : Nat} (hp : p ∈ A) :
    (A : Multiset Nat) = {p} + (A.erase p : List Nat) := by
  rw [Multiset.singleton_add, ← Multiset.coe_erase]
  exact (Multiset.cons_erase (Multiset.mem_coe.2 hp)).symm

theorem permP1 (x : Nat) (A B C D : List Nat) :
    (A ++ B ++ (C ++ [x]) ++ D).Perm ((x :: A) ++ B ++ C ++ D) := by
  refine ms_perm ?_
  have hx : ((x :: A : List Nat) : Multiset Nat) = {x} + (A : Multiset Nat) := by
    rw [Multiset.singleton_add, Multiset.cons_coe]
  simp only [← Multiset.coe_add, hx, Multiset.coe_singleton]
  abel

theorem permP2 (y : Nat) (A B C D : List Nat) :
    (A ++ B ++ C ++ (D ++ [y])).Perm (A ++ (y :: B) ++ C ++ D) := by
  refine ms_perm ?_
  have hy : ((y :: B : List Nat) : Multiset Nat) = {y} + (B : Multiset Nat) := by
    rw [Multiset.singleton_add, Multiset.cons_coe]
  simp only [← Multiset.coe_add, hy, Multiset.coe_singleton]
  abel

theorem permP3 (p : Nat) (A B C D : List Nat) (hp : p ∈ A) :
    ((A.erase p) ++ (B ++ [p]) ++ C ++ D).Perm (A ++ B ++ C ++ D) := by
  refine ms_perm ?_
  simp only [← Multiset.coe_add, ms_cons_erase hp, Multiset.coe_singleton]
  abel

theorem permP4 (p : Nat) (A B C D : List Nat) (hp : p ∈ B) :
    (A ++ ((B.erase p) ++ [p]) ++ C ++ D).Perm (A ++ B ++ C ++ D) := by
  refine ms_perm ?_
  simp only [← Multiset.coe_add, ms_cons_erase hp, Multiset.coe_singleton]
  abel

theorem permP5 (p : Nat) (A B C D : List Nat) (hp : p ∈ A) :
    ((A.erase p) ++ B ++ (C ++ [p]) ++ D).Perm (A ++ B ++ C ++ D) := by
  refine ms_perm ?_
  simp only [← Multiset.coe_add, ms_cons_erase hp, Multiset.coe_singleton]
  abel

theorem permP6 (p : Nat) (A B C D : List Nat) (hp : p ∈ B) :
    (A ++ (B.erase p) ++ C ++ (D ++ [p])).Perm (A ++ B ++ C ++ D) := by
  refine ms_perm ?_
  simp only [← Multiset.coe_add, ms_cons_erase hp, Multiset.coe_singleton]
  abel

theorem permP7 (p : Nat) (A B C D : List Nat) :
    (A ++ (B ++ [p]) ++ C ++ D).Perm (p :: (A ++ B ++ C ++ D)) := by
  refine ms_perm ?_
  have hp : ((p :: (A ++ B ++ C ++ D) : List Nat) : Multiset Nat) =
      {p} + ((A ++ B ++ C ++ D : List Nat) : Multiset Nat) := by
    rw [Multiset.singleton_add, Multiset.cons_coe]
  simp only [← Multiset.coe_add, hp, Multiset.coe_singleton]
  abel

theorem permP8 (p : Nat) (A B C D : List Nat) :
    ((A ++ [p]) ++ B ++ C ++ D).Perm (p :: (A ++ B ++ C ++ D)) := by
  refine ms_perm ?_
  have hp : ((p :: (A ++ B ++ C ++ D) : List Nat) : Multiset Nat) =
      {p} + ((A ++ B ++ C ++ D : List Nat) : Multiset Nat) := by
    rw [Multiset.singleton_add, Multiset.cons_coe]
  simp only [← Multiset.coe_add, hp, Multiset.coe_singleton]
  abel

theorem nodup4_iff (A B C D : List Nat) :
    (A ++ B ++ C ++ D).Nodup ↔
      A.Nodup ∧ B.Nodup ∧ C.Nodup ∧ D.Nodup ∧
      List.Disjoint A B ∧ List.Disjoint A C ∧ List.Disjoint A D ∧
      List.Disjoint B C ∧ List.Disjoint B D ∧ List.Disjoint C D := by
  simp only [List.nodup_append, List.disjoint_append_left]
  tauto

theorem sub4 {A A' B B' C C' D D' : List Nat} (hA : A'.Sublist A)
    (hB : B'.Sublist B) (hC : C'.Sublist C) (hD : D'.Sublist D) :
    (A' ++ B' ++ C' ++ D').Sublist (A ++ B ++ C ++ D) :=
  ((hA.append hB).append hC).append hD

theorem mem4 {A B C D : List Nat} {q : Nat} :
    q ∈ A ++ B ++ C ++ D ↔ q ∈ A ∨ q ∈ B ∨ q ∈ C ∨ q ∈ D := by
  simp only [List.mem_append]
  tauto

theorem findEvictable_mem {pt : List (Nat × Node)} {l : List Nat} {p : Nat}
    (h : findEvictable pt l = some p) : p ∈ l := by
  induction l with
  | nil => simp [findEvictable] at h
  | cons q rest ih =>
    unfold findEvictable at h
    cases hget : alGet pt q with
    | none =>
      rw [hget] at h
      exact List.mem_cons_of_mem _ (ih h)
    | some n =>
      rw [hget] at h
      dsimp only at h
      by_cases hev : n.is_evictable = true
      · rw [if_pos hev] at h
        rw [← Option.some_inj.1 h]
        exact List.mem_cons_self _ _
      · rw [if_neg hev] at h
        exact List.mem_cons_of_mem _ (ih h)

/-! ### Invariant preservation for the ARC operations -/

theorem arcReplace_facts (s : ArcReplacer) (g : Bool) (h : ArcWF s) :
    ArcWF (arcReplace s g) ∧
    (arcReplace s g).replacer_size = s.replacer_size ∧
    (arcReplace s g).mru_target_size = s.mru_target_size ∧
    (arcReplace s g).mru.length + (arcReplace s g).mru_ghost.length
      = s.mru.length + s.mru_ghost.length ∧
    arcTotal (arcReplace s g) = arcTotal s ∧
    (arcReplace s g).mru.length + (arcReplace s g).mfu.length
      ≤ s.mru.length + s.mfu.length ∧
    (∀ q, q ∈ arcLists (arcReplace s g) → q ∈ arcLists s) ∧
    (s.mru.length + s.mfu.length = s.replacer_size → 0 < s.replacer_size →
      (g = true ∨ s.mru.length < s.replacer_size) →
      (arcReplace s g).mru.length + (arcReplace s g).mfu.length + 1
        = s.replacer_size) := by
  obtain ⟨⟨i1, i2, i3, i4, hk1, hk2, hk3⟩, hnd⟩ := h
  unfold arcReplace
  by_cases hcond : 0 < s.mru.length ∧ (s.mru_target_size < s.mru.length ∨
      (g = true ∧ s.mru.length = s.mru_target_size))
  · rw [if_pos hcond]
    rcases hA : s.mru with _ | ⟨x, rest⟩
    · rw [hA] at hcond
      simp at hcond
    · dsimp only
      rw [hA] at i1 i2 i3 hk1 hk2
      rw [show arcLists s = (x :: rest) ++ s.mfu ++ s.mru_ghost ++ s.mfu_ghost from by
        rw [arcLists, hA]] at hnd
      have hperm := permP1 x rest s.mfu s.mru_ghost s.mfu_ghost
      have hnd4 := (nodup4_iff _ _ _ _).1 hnd
      have hxrest : x ∉ rest := by
        have h5 := hnd4.1
        rw [List.nodup_cons] at h5
        exact h5.1
      have hxB : x ∉ s.mfu := hnd4.2.2.2.2.1 (List.mem_cons_self x rest)
      simp only [List.length_cons] at i1 i2 i3
      refine ⟨⟨⟨?_, ?_, ?_, i4, ?_, ?_, ?_⟩, ?_⟩, rfl, rfl, ?_, ?_, ?_, ?_, ?_⟩
      · show rest.length + s.mfu.length ≤ s.replacer_size
        omega
      · show rest.length + (s.mru_ghost ++ [x]).length ≤ s.replacer_size
        simp only [List.length_append, List.length_singleton, List.length_cons, List.length_nil]
        omega
      · show rest.length + s.mfu.length + (s.mru_ghost ++ [x]).length +
          s.mfu_ghost.length ≤ 2 * s.replacer_size
        simp only [List.length_append, List.length_singleton, List.length_cons, List.length_nil]
        omega
      · show ∀ q ∈ alKeys (alErase s.page_table x), q ∈ rest ∨ q ∈ s.mfu
        intro q hq
        obtain ⟨hne, hq2⟩ := mem_alKeys_erase.1 hq
        rcases hk1 q hq2 with hqa | hqb
        · rcases List.mem_cons.1 hqa with rfl | hqr
          · exact absurd rfl hne
          · exact Or.inl hqr
        · exact Or.inr hqb
      · show ∀ q ∈ rest, q ∈ alKeys (alErase s.page_table x)
        intro q hq
        refine mem_alKeys_erase.2 ⟨?_, hk2 q (List.mem_cons_of_mem _ hq)⟩
        intro hqx
        exact hxrest (hqx ▸ hq)
      · show ∀ q ∈ s.mfu, q ∈ alKeys (alErase s.page_table x)
        intro q hq
        refine mem_alKeys_erase.2 ⟨?_, hk3 q hq⟩
        intro hqx
        exact hxB (hqx ▸ hq)
      · show (rest ++ s.mfu ++ (s.mru_ghost ++ [x]) ++ s.mfu_ghost).Nodup
        exact hperm.symm.nodup hnd
      · show rest.length + (s.mru_ghost ++ [x]).length
          = (x :: rest).length + s.mru_ghost.length
        simp only [List.length_append, List.length_singleton, List.length_cons, List.length_nil]
        omega
      · show rest.length + s.mfu.length + (s.mru_ghost ++ [x]).length +
          s.mfu_ghost.length = arcTotal s
        rw [arcTotal, hA]
        simp only [List.length_append, List.length_singleton, List.length_cons, List.length_nil]
        omega
      · show rest.length + s.mfu.length ≤ (x :: rest).length + s.mfu.length
        simp only [List.length_cons]
        omega
      · intro q hq
        rw [arcLists, hA]
        exact hperm.mem_iff.1 hq
      · intro hres hc hside
        show rest.length + s.mfu.length + 1 = s.replacer_size
        simp only [List.length_cons] at hres
        omega
  · rw [if_neg hcond]
    rcases hB : s.mfu with _ | ⟨y, rest⟩
    · dsimp only
      refine ⟨⟨⟨i1, i2, i3, i4, hk1, hk2, hk3⟩, hnd⟩, rfl, rfl, rfl, rfl,
        by rw [hB], fun q hq => hq, ?_⟩
      intro hres hc hside
      exfalso
      rw [hB] at i1
      simp only [List.length_nil] at i1 hres
      rcases hside with hg | hlt
      · subst hg
        rcases Nat.lt_or_ge s.mru_target_size s.mru.length with ht | ht
        · exact hcond ⟨by omega, Or.inl ht⟩
        · have heq : s.mru.length = s.mru_target_size := by omega
          exact hcond ⟨by omega, Or.inr ⟨rfl, heq⟩⟩
      · omega
    · dsimp only
      rw [hB] at i1 i3 hk1 hk3
      rw [show arcLists s = s.mru ++ (y :: rest) ++ s.mru_ghost ++ s.mfu_ghost from by
        rw [arcLists, hB]] at hnd
      have hperm := permP2 y s.mru rest s.mru_ghost s.mfu_ghost
      have hnd4 := (nodup4_iff _ _ _ _).1 hnd
      have hyrest : y ∉ rest := by
        have h5 := hnd4.2.1
        rw [List.nodup_cons] at h5
        exact h5.1
      have hyA : y ∉ s.mru := fun hy => hnd4.2.2.2.2.1 hy (List.mem_cons_self y rest)
      simp only [List.length_cons] at i1 i3
      refine ⟨⟨⟨?_, i2, ?_, i4, ?_, ?_, ?_⟩, ?_⟩, rfl, rfl, rfl, ?_, ?_, ?_, ?_⟩
      · show s.mru.length + rest.length ≤ s.replacer_size
        omega
      · show s.mru.length + rest.length + s.mru_ghost.length +
          (s.mfu_ghost ++ [y]).length ≤ 2 * s.replacer_size
        simp only [List.length_append, List.length_singleton, List.length_cons, List.length_nil]
        omega
      · show ∀ q ∈ alKeys (alErase s.page_table y), q ∈ s.mru ∨ q ∈ rest
        intro q hq
        obtain ⟨hne, hq2⟩ := mem_alKeys_erase.1 hq
        rcases hk1 q hq2 with hqa | hqb
        · exact Or.inl hqa
        · rcases List.mem_cons.1 hqb with rfl | hqr
          · exact absurd rfl hne
          · exact Or.inr hqr
      · show ∀ q ∈ s.mru, q ∈ alKeys (alErase s.page_table y)
        intro q hq
        refine mem_alKeys_erase.2 ⟨?_, hk2 q hq⟩
        intro hqy
        exact hyA (hqy ▸ hq)
      · show ∀ q ∈ rest, q ∈ alKeys (alErase s.page_table y)
        intro q hq
        refine mem_alKeys_erase.2 ⟨?_, hk3 q (List.mem_cons_of_mem _ hq)⟩
        intro hqy
        exact hyrest (hqy ▸ hq)
      · show (s.mru ++ rest ++ s.mru_ghost ++ (s.mfu_ghost ++ [y])).Nodup
        exact hperm.symm.nodup hnd
      · show s.mru.length + rest.length + s.mru_ghost.length +
          (s.mfu_ghost ++ [y]).length = arcTotal s
        rw [arcTotal, hB]
        simp only [List.length_append, List.length_singleton, List.length_cons, List.length_nil]
        omega
      · show s.mru.length + rest.length ≤ s.mru.length + (y :: rest).length
        simp only [List.length_cons]
        omega
      · intro q hq
        rw [arcLists, hB]
        exact hperm.mem_iff.1 hq
      · intro hres hc hside
        show s.mru.length + rest.length + 1 = s.replacer_size
        simp only [List.length_cons] at hres
        omega

theorem insertMfu_wf (s : ArcReplacer) (p fid : Nat) (h : ArcWF s)
    (hp : p ∉ arcLists s)
    (hres : s.mru.length + s.mfu.length < s.replacer_size)
    (htot : arcTotal s < 2 * s.replacer_size) :
    ArcWF (insertMfu s p fid) := by
  obtain ⟨⟨i1, i2, i3, i4, hk1, hk2, hk3⟩, hnd⟩ := h
  unfold insertMfu
  have hperm := permP7 p s.mru s.mfu s.mru_ghost s.mfu_ghost
  refine ⟨⟨?_, i2, ?_, i4, ?_, ?_, ?_⟩, ?_⟩
  · show s.mru.length + (s.mfu ++ [p]).length ≤ s.replacer_size
    simp only [List.length_append, List.length_singleton]
    omega
  · show s.mru.length + (s.mfu ++ [p]).length + s.mru_ghost.length +
      s.mfu_ghost.length ≤ 2 * s.replacer_size
    rw [arcTotal] at htot
    simp only [List.length_append, List.length_singleton]
    omega
  · intro q hq
    rcases mem_alKeys_insert.1 hq with rfl | hq2
    · exact Or.inr (List.mem_append.2 (Or.inr (List.mem_singleton_self _)))
    · rcases hk1 q hq2 with hqa | hqb
      · exact Or.inl hqa
      · exact Or.inr (List.mem_append.2 (Or.inl hqb))
  · intro q hq
    exact mem_alKeys_insert.2 (Or.inr (hk2 q hq))
  · intro q hq
    rcases List.mem_append.1 hq with hq2 | hq2
    · exact mem_alKeys_insert.2 (Or.inr (hk3 q hq2))
    · exact mem_alKeys_insert.2 (Or.inl (List.mem_singleton.1 hq2))
  · show (s.mru ++ (s.mfu ++ [p]) ++ s.mru_ghost ++ s.mfu_ghost).Nodup
    exact hperm.symm.nodup (List.nodup_cons.2 ⟨hp, hnd⟩)

theorem insertMru_wf (s : ArcReplacer) (p fid : Nat) (h : ArcWF s)
    (hp : p ∉ arcLists s)
    (hres : s.mru.length + s.mfu.length < s.replacer_size)
    (hL1 : s.mru.length + s.mru_ghost.length < s.replacer_size)
    (htot : arcTotal s < 2 * s.replacer_size) :
    ArcWF (insertMru s p fid) := by
  obtain ⟨⟨i1, i2, i3, i4, hk1, hk2, hk3⟩, hnd⟩ := h
  unfold insertMru
  have hperm := permP8 p s.mru s.mfu s.mru_ghost s.mfu_ghost
  refine ⟨⟨?_, ?_, ?_, i4, ?_, ?_, ?_⟩, ?_⟩
  · show (s.mru ++ [p]).length + s.mfu.length ≤ s.replacer_size
    simp only [List.length_append, List.length_singleton]
    omega
  · show (s.mru ++ [p]).length + s.mru_ghost.length ≤ s.replacer_size
    simp only [List.length_append, List.length_singleton]
    omega
  · show (s.mru ++ [p]).length + s.mfu.length + s.mru_ghost.length +
      s.mfu_ghost.length ≤ 2 * s.replacer_size
    rw [arcTotal] at htot
    simp only [List.length_append, List.length_singleton]
    omega
  · intro q hq
    rcases mem_alKeys_insert.1 hq with rfl | hq2
    · exact Or.inl (List.mem_append.2 (Or.inr (List.mem_singleton_self _)))
    · rcases hk1 q hq2 with hqa | hqb
      · exact Or.inl (List.mem_append.2 (Or.inl hqa))
      · exact Or.inr hqb
  · intro q hq
    rcases List.mem_append.1 hq with hq2 | hq2
    · exact mem_alKeys_insert.2 (Or.inr (hk2 q hq2))
    · exact mem_alKeys_insert.2 (Or.inl (List.mem_singleton.1 hq2))
  · intro q hq
    exact mem_alKeys_insert.2 (Or.inr (hk3 q hq))
  · show ((s.mru ++ [p]) ++ s.mfu ++ s.mru_ghost ++ s.mfu_ghost).Nodup
    exact hperm.symm.nodup (List.nodup_cons.2 ⟨hp, hnd⟩)

theorem arcWF_withCount (s : ArcReplacer) : ArcWF (withCount s) ↔ ArcWF s :=
  Iff.rfl

theorem set_evictable_wf (s : ArcReplacer) (p : Nat) (ev : Bool) (h : ArcWF s) :
    ArcWF (set_evictable s p ev) := by
  unfold set_evictable
  rw [arcWF_withCount]
  obtain ⟨⟨i1, i2, i3, i4, hk1, hk2, hk3⟩, hnd⟩ := h
  cases hget : alGet s.page_table p with
  | none => exact ⟨⟨i1, i2, i3, i4, hk1, hk2, hk3⟩, hnd⟩
  | some n =>
    dsimp only
    refine ⟨⟨i1, i2, i3, i4, ?_, ?_, ?_⟩, hnd⟩
    · intro q hq
      rcases mem_alKeys_insert.1 hq with rfl | hq2
      · exact hk1 q (alGet_mem_alKeys hget)
      · exact hk1 q hq2
    · intro q hq
      exact mem_alKeys_insert.2 (Or.inr (hk2 q hq))
    · intro q hq
      exact mem_alKeys_insert.2 (Or.inr (hk3 q hq))

theorem removePage_wf (s : ArcReplacer) (p : Nat) (h : ArcWF s) :
    ArcWF (removePage s p) := by
  unfold removePage
  rw [arcWF_withCount]
  obtain ⟨⟨i1, i2, i3, i4, hk1, hk2, hk3⟩, hnd⟩ := h
  have hnd4 := (nodup4_iff _ _ _ _).1 hnd
  by_cases h1 : p ∈ s.mru
  · rw [if_pos h1]
    have hsub := sub4 (List.erase_sublist p s.mru) (List.Sublist.refl s.mfu)
      (List.Sublist.refl s.mru_ghost) (List.Sublist.refl s.mfu_ghost)
    refine ⟨⟨?_, ?_, ?_, i4, ?_, ?_, ?_⟩, ?_⟩
    · show (s.mru.erase p).length + s.mfu.length ≤ s.replacer_size
      have := List.length_erase_of_mem h1
      omega
    · show (s.mru.erase p).length + s.mru_ghost.length ≤ s.replacer_size
      have := List.length_erase_of_mem h1
      omega
    · show (s.mru.erase p).length + s.mfu.length + s.mru_ghost.length +
        s.mfu_ghost.length ≤ 2 * s.replacer_size
      have := List.length_erase_of_mem h1
      omega
    · intro q hq
      obtain ⟨hne, hq2⟩ := mem_alKeys_erase.1 hq
      rcases hk1 q hq2 with hqa | hqb
      · exact Or.inl ((List.Nodup.mem_erase_iff hnd4.1).2 ⟨hne, hqa⟩)
      · exact Or.inr hqb
    · intro q hq
      have hq2 := (List.Nodup.mem_erase_iff hnd4.1).1 hq
      exact mem_alKeys_erase.2 ⟨hq2.1, hk2 q hq2.2⟩
    · intro q hq
      refine mem_alKeys_erase.2 ⟨?_, hk3 q hq⟩
      intro hqp
      exact hnd4.2.2.2.2.1 h1 (hqp ▸ hq)
    · exact List.Nodup.sublist hsub hnd
  · rw [if_neg h1]
    by_cases h2 : p ∈ s.mfu
    · rw [if_pos h2]
      have hsub := sub4 (List.Sublist.refl s.mru) (List.erase_sublist p s.mfu)
        (List.Sublist.refl s.mru_ghost) (List.Sublist.refl s.mfu_ghost)
      refine ⟨⟨?_, i2, ?_, i4, ?_, ?_, ?_⟩, ?_⟩
      · show s.mru.length + (s.mfu.erase p).length ≤ s.replacer_size
        have := List.length_erase_of_mem h2
        omega
      · show s.mru.length + (s.mfu.erase p).length + s.mru_ghost.length +
          s.mfu_ghost.length ≤ 2 * s.replacer_size
        have := List.length_erase_of_mem h2
        omega
      · intro q hq
        obtain ⟨hne, hq2⟩ := mem_alKeys_erase.1 hq
        rcases hk1 q hq2 with hqa | hqb
        · exact Or.inl hqa
        · exact Or.inr ((List.Nodup.mem_erase_iff hnd4.2.1).2 ⟨hne, hqb⟩)
      · intro q hq
        refine mem_alKeys_erase.2 ⟨?_, hk2 q hq⟩
        intro hqp
        exact h1 (hqp ▸ hq)
      · intro q hq
        have hq2 := (List.Nodup.mem_erase_iff hnd4.2.1).1 hq
        exact mem_alKeys_erase.2 ⟨hq2.1, hk3 q hq2.2⟩
      · exact List.Nodup.sublist hsub hnd
    · rw [if_neg h2]
      exact ⟨⟨i1, i2, i3, i4, hk1, hk2, hk3⟩, hnd⟩

theorem evictFrom_mru_wf (s : ArcReplacer) (p : Nat) (h : ArcWF s)
    (hp : p ∈ s.mru) : ArcWF (evictFrom s p true) := by
  obtain ⟨⟨i1, i2, i3, i4, hk1, hk2, hk3⟩, hnd⟩ := h
  have hnd4 := (nodup4_iff _ _ _ _).1 hnd
  have hlen := List.length_erase_of_mem hp
  have hpos := List.length_pos_of_mem hp
  have hperm := permP5 p s.mru s.mfu s.mru_ghost s.mfu_ghost hp
  unfold evictFrom
  rw [if_pos rfl]
  refine ⟨⟨?_, ?_, ?_, i4, ?_, ?_, ?_⟩, ?_⟩
  · show (s.mru.erase p).length + s.mfu.length ≤ s.replacer_size
    omega
  · show (s.mru.erase p).length + (s.mru_ghost ++ [p]).length ≤ s.replacer_size
    simp only [List.length_append, List.length_singleton]
    omega
  · show (s.mru.erase p).length + s.mfu.length + (s.mru_ghost ++ [p]).length +
      s.mfu_ghost.length ≤ 2 * s.replacer_size
    simp only [List.length_append, List.length_singleton]
    omega
  · intro q hq
    obtain ⟨hne, hq2⟩ := mem_alKeys_erase.1 hq
    rcases hk1 q hq2 with hqa | hqb
    · exact Or.inl ((List.Nodup.mem_erase_iff hnd4.1).2 ⟨hne, hqa⟩)
    · exact Or.inr hqb
  · intro q hq
    have hq2 := (List.Nodup.mem_erase_iff hnd4.1).1 hq
    exact mem_alKeys_erase.2 ⟨hq2.1, hk2 q hq2.2⟩
  · intro q hq
    refine mem_alKeys_erase.2 ⟨?_, hk3 q hq⟩
    intro hqp
    exact hnd4.2.2.2.2.1 hp (hqp ▸ hq)
  · show ((s.mru.erase p) ++ s.mfu ++ (s.mru_ghost ++ [p]) ++ s.mfu_ghost).Nodup
    exact hperm.symm.nodup hnd

theorem evictFrom_mfu_wf (s : ArcReplacer) (p : Nat) (h : ArcWF s)
    (hp : p ∈ s.mfu) : ArcWF (evictFrom s p false) := by
  obtain ⟨⟨i1, i2, i3, i4, hk1, hk2, hk3⟩, hnd⟩ := h
  have hnd4 := (nodup4_iff _ _ _ _).1 hnd
  have hlen := List.length_erase_of_mem hp
  have hpos := List.length_pos_of_mem hp
  have hperm := permP6 p s.mru s.mfu s.mru_ghost s.mfu_ghost hp
  unfold evictFrom
  rw [if_neg (by simp)]
  refine ⟨⟨?_, i2, ?_, i4, ?_, ?_, ?_⟩, ?_⟩
  · show s.mru.length + (s.mfu.erase p).length ≤ s.replacer_size
    omega
  · show s.mru.length + (s.mfu.erase p).length + s.mru_ghost.length +
      (s.mfu_ghost ++ [p]).length ≤ 2 * s.replacer_size
    simp only [List.length_append, List.length_singleton]
    omega
  · intro q hq
    obtain ⟨hne, hq2⟩ := mem_alKeys_erase.1 hq
    rcases hk1 q hq2 with hqa | hqb
    · exact Or.inl hqa
    · exact Or.inr ((List.Nodup.mem_erase_iff hnd4.2.1).2 ⟨hne, hqb⟩)
  · intro q hq
    refine mem_alKeys_erase.2 ⟨?_, hk2 q hq⟩
    intro hqp
    exact hnd4.2.2.2.2.1 (hqp ▸ hq) hp
  · intro q hq
    have hq2 := (List.Nodup.mem_erase_iff hnd4.2.1).1 hq
    exact mem_alKeys_erase.2 ⟨hq2.1, hk3 q hq2.2⟩
  · show (s.mru ++ (s.mfu.erase p) ++ s.mru_ghost ++ (s.mfu_ghost ++ [p])).Nodup
    exact hperm.symm.nodup hnd

theorem evictPick_mem (s : ArcReplacer) (p : Nat) (b : Bool)
    (h : evictPick s = some (p, b)) :
    (b = true ∧ p ∈ s.mru) ∨ (b = false ∧ p ∈ s.mfu) := by
  unfold evictPick at h
  by_cases hif : s.mru_target_size < s.mru.length
  · rw [if_pos hif] at h
    cases hf1 : findEvictable s.page_table s.mru with
    | some q =>
      rw [hf1] at h
      dsimp only at h
      rw [Option.some_inj, Prod.mk.injEq] at h
      obtain ⟨rfl, rfl⟩ := h
      exact Or.inl ⟨rfl, findEvictable_mem hf1⟩
    | none =>
      rw [hf1] at h
      dsimp only at h
      cases hf2 : findEvictable s.page_table s.mfu with
      | none => rw [hf2] at h; simp at h
      | some q =>
        rw [hf2] at h
        simp only [Option.map_some', Option.some.injEq, Prod.mk.injEq] at h
        obtain ⟨rfl, rfl⟩ := h
        exact Or.inr ⟨rfl, findEvictable_mem hf2⟩
  · rw [if_neg hif] at h
    cases hf1 : findEvictable s.page_table s.mfu with
    | some q =>
      rw [hf1] at h
      dsimp only at h
      rw [Option.some_inj, Prod.mk.injEq] at h
      obtain ⟨rfl, rfl⟩ := h
      exact Or.inr ⟨rfl, findEvictable_mem hf1⟩
    | none =>
      rw [hf1] at h
      dsimp only at h
      cases hf2 : findEvictable s.page_table s.mru with
      | none => rw [hf2] at h; simp at h
      | some q =>
        rw [hf2] at h
        simp only [Option.map_some', Option.some.injEq, Prod.mk.injEq] at h
        obtain ⟨rfl, rfl⟩ := h
        exact Or.inl ⟨rfl, findEvictable_mem hf2⟩

theorem evict_wf (s : ArcReplacer) (h : ArcWF s) : ArcWF (evict s).2 := by
  unfold evict
  rcases hpick : evictPick s with _ | ⟨p, b⟩
  · exact h
  · dsimp only
    rw [arcWF_withCount]
    rcases evictPick_mem s p b hpick with ⟨rfl, hp⟩ | ⟨rfl, hp⟩
    · exact evictFrom_mru_wf s p h hp
    · exact evictFrom_mfu_wf s p h hp

theorem ghostRevive_wf (s1 : ArcReplacer) (p fid : Nat) (g : Bool)
    (hWF1 : ArcWF s1) (hp1 : p ∉ arcLists s1)
    (htot1 : arcTotal s1 < 2 * s1.replacer_size)
    (hside : g = true ∨ s1.mru.length < s1.replacer_size)
    (hc : 0 < s1.replacer_size) :
    ArcWF (insertMfu (arcReplace s1 g) p fid) := by
  obtain ⟨hWF2, hsize2, htgt2, hL12, htot2, hres2le, hmem2, hmove2⟩ :=
    arcReplace_facts s1 g hWF1
  have hp2 : p ∉ arcLists (arcReplace s1 g) := fun hm => hp1 (hmem2 p hm)
  have hres2 : (arcReplace s1 g).mru.length + (arcReplace s1 g).mfu.length
      < s1.replacer_size := by
    rcases Nat.lt_or_ge (s1.mru.length + s1.mfu.length) s1.replacer_size with hlt | hge
    · omega
    · have hfull : s1.mru.length + s1.mfu.length = s1.replacer_size :=
        le_antisymm hWF1.1.1 hge
      have := hmove2 hfull hc hside
      omega
  refine insertMfu_wf _ p fid hWF2 hp2 ?_ ?_
  · rw [hsize2]
    exact hres2
  · rw [hsize2, htot2]
    exact htot1

theorem missReplaceInsert_wf (s1 : ArcReplacer) (p fid : Nat)
    (hWF1 : ArcWF s1) (hp1 : p ∉ arcLists s1)
    (htot1 : arcTotal s1 < 2 * s1.replacer_size)
    (hL11 : s1.mru.length + s1.mru_ghost.length < s1.replacer_size)
    (hA1 : s1.mru.length < s1.replacer_size)
    (hc : 0 < s1.replacer_size) :
    ArcWF (insertMru (arcReplace s1 false) p fid) := by
  obtain ⟨hWF2, hsize2, htgt2, hL12, htot2, hres2le, hmem2, hmove2⟩ :=
    arcReplace_facts s1 false hWF1
  have hp2 : p ∉ arcLists (arcReplace s1 false) := fun hm => hp1 (hmem2 p hm)
  have hres2 : (arcReplace s1 false).mru.length + (arcReplace s1 false).mfu.length
      < s1.replacer_size := by
    rcases Nat.lt_or_ge (s1.mru.length + s1.mfu.length) s1.replacer_size with hlt | hge
    · omega
    · have hfull : s1.mru.length + s1.mfu.length = s1.replacer_size :=
        le_antisymm hWF1.1.1 hge
      have := hmove2 hfull hc (Or.inr hA1)
      omega
  refine insertMru_wf _ p fid hWF2 hp2 ?_ ?_ ?_
  · rw [hsize2]
    exact hres2
  · rw [hsize2, hL12]
    exact hL11
  · rw [hsize2, htot2]
    exact htot1

theorem record_access_wf (s : ArcReplacer) (p fid : Nat) (h : ArcWF s)
    (hc : 0 < s.replacer_size) : ArcWF (record_access s p fid) := by
  obtain ⟨⟨i1, i2, i3, i4, hk1, hk2, hk3⟩, hnd⟩ := h
  obtain ⟨nA, nB, nC, nD, dAB, dAC, dAD, dBC, dBD, dCD⟩ := (nodup4_iff _ _ _ _).1 hnd
  unfold record_access
  rw [arcWF_withCount]
  by_cases h1 : p ∈ s.mru
  · rw [if_pos h1]
    have hlen := List.length_erase_of_mem h1
    have hpos := List.length_pos_of_mem h1
    have hperm := permP3 p s.mru s.mfu s.mru_ghost s.mfu_ghost h1
    refine ⟨⟨?_, ?_, ?_, i4, ?_, ?_, ?_⟩, ?_⟩
    · show (s.mru.erase p).length + (s.mfu ++ [p]).length ≤ s.replacer_size
      simp only [List.length_append, List.length_singleton]
      omega
    · show (s.mru.erase p).length + s.mru_ghost.length ≤ s.replacer_size
      omega
    · show (s.mru.erase p).length + (s.mfu ++ [p]).length + s.mru_ghost.length +
        s.mfu_ghost.length ≤ 2 * s.replacer_size
      simp only [List.length_append, List.length_singleton]
      omega
    · intro q hq
      rcases mem_alKeys_insert.1 hq with rfl | hq2
      · exact Or.inr (List.mem_append.2 (Or.inr (List.mem_singleton_self _)))
      · rcases hk1 q hq2 with hqa | hqb
        · by_cases hqp : q = p
          · exact Or.inr (List.mem_append.2 (Or.inr (by
              rw [hqp]; exact List.mem_singleton_self _)))
          · exact Or.inl ((List.Nodup.mem_erase_iff nA).2 ⟨hqp, hqa⟩)
        · exact Or.inr (List.mem_append.2 (Or.inl hqb))
    · intro q hq
      exact mem_alKeys_insert.2 (Or.inr (hk2 q (List.mem_of_mem_erase hq)))
    · intro q hq
      rcases List.mem_append.1 hq with hq2 | hq2
      · exact mem_alKeys_insert.2 (Or.inr (hk3 q hq2))
      · exact mem_alKeys_insert.2 (Or.inl (List.mem_singleton.1 hq2))
    · show ((s.mru.erase p) ++ (s.mfu ++ [p]) ++ s.mru_ghost ++ s.mfu_ghost).Nodup
      exact hperm.symm.nodup hnd
  · rw [if_neg h1]
    by_cases h2 : p ∈ s.mfu
    · rw [if_pos h2]
      have hlen := List.length_erase_of_mem h2
      have hpos := List.length_pos_of_mem h2
      have hperm := permP4 p s.mru s.mfu s.mru_ghost s.mfu_ghost h2
      refine ⟨⟨?_, i2, ?_, i4, ?_, ?_, ?_⟩, ?_⟩
      · show s.mru.length + (s.mfu.erase p ++ [p]).length ≤ s.replacer_size
        simp only [List.length_append, List.length_singleton]
        omega
      · show s.mru.length + (s.mfu.erase p ++ [p]).length + s.mru_ghost.length +
          s.mfu_ghost.length ≤ 2 * s.replacer_size
        simp only [List.length_append, List.length_singleton]
        omega
      · intro q hq
        rcases mem_alKeys_insert.1 hq with rfl | hq2
        · exact Or.inr (List.mem_append.2 (Or.inr (List.mem_singleton_self _)))
        · rcases hk1 q hq2 with hqa | hqb
          · exact Or.inl hqa
          · by_cases hqp : q = p
            · exact Or.inr (List.mem_append.2 (Or.inr (by
                rw [hqp]; exact List.mem_singleton_self _)))
            · exact Or.inr (List.mem_append.2 (Or.inl
                ((List.Nodup.mem_erase_iff nB).2 ⟨hqp, hqb⟩)))
      · intro q hq
        exact mem_alKeys_insert.2 (Or.inr (hk2 q hq))
      · intro q hq
        rcases List.mem_append.1 hq with hq2 | hq2
        · exact mem_alKeys_insert.2 (Or.inr (hk3 q (List.mem_of_mem_erase hq2)))
        · exact mem_alKeys_insert.2 (Or.inl (List.mem_singleton.1 hq2))
      · show (s.mru ++ (s.mfu.erase p ++ [p]) ++ s.mru_ghost ++ s.mfu_ghost).Nodup
        exact hperm.symm.nodup hnd
    · rw [if_neg h2]
      by_cases h3 : p ∈ s.mru_ghost
      · rw [if_pos h3]
        show ArcWF (arcGhostHit s p fid false)
        unfold arcGhostHit
        have hposC := List.length_pos_of_mem h3
        have hlenC := List.length_erase_of_mem h3
        have hsubC := List.erase_sublist p s.mru_ghost
        refine ghostRevive_wf _ p fid false ⟨⟨i1, ?_, ?_, ?_, hk1, hk2, hk3⟩, ?_⟩
          ?_ ?_ (Or.inr ?_) hc
        · show s.mru.length + (s.mru_ghost.erase p).length ≤ s.replacer_size
          have := hsubC.length_le
          omega
        · show s.mru.length + s.mfu.length + (s.mru_ghost.erase p).length +
            s.mfu_ghost.length ≤ 2 * s.replacer_size
          have := hsubC.length_le
          omega
        · show min s.replacer_size _ ≤ s.replacer_size
          exact Nat.min_le_left _ _
        · show (s.mru ++ s.mfu ++ (s.mru_ghost.erase p) ++ s.mfu_ghost).Nodup
          exact List.Nodup.sublist (sub4 (List.Sublist.refl _) (List.Sublist.refl _)
            hsubC (List.Sublist.refl _)) hnd
        · show p ∉ s.mru ++ s.mfu ++ (s.mru_ghost.erase p) ++ s.mfu_ghost
          intro hm
          rcases mem4.1 hm with hA | hB | hC2 | hD
          · exact h1 hA
          · exact h2 hB
          · exact ((List.Nodup.mem_erase_iff nC).1 hC2).1 rfl
          · exact dCD h3 hD
        · show s.mru.length + s.mfu.length + (s.mru_ghost.erase p).length +
            s.mfu_ghost.length < 2 * s.replacer_size
          omega
        · show s.mru.length < s.replacer_size
          omega
      · rw [if_neg h3]
        by_cases h4 : p ∈ s.mfu_ghost
        · rw [if_pos h4]
          show ArcWF (arcGhostHit s p fid true)
          unfold arcGhostHit
          have hposD := List.length_pos_of_mem h4
          have hlenD := List.length_erase_of_mem h4
          have hsubD := List.erase_sublist p s.mfu_ghost
          refine ghostRevive_wf _ p fid true ⟨⟨i1, i2, ?_, ?_, hk1, hk2, hk3⟩, ?_⟩
            ?_ ?_ (Or.inl rfl) hc
          · show s.mru.length + s.mfu.length + s.mru_ghost.length +
              (s.mfu_ghost.erase p).length ≤ 2 * s.replacer_size
            have := hsubD.length_le
            omega
          · show s.mru_target_size - _ ≤ s.replacer_size
            exact le_trans (Nat.sub_le _ _) i4
          · show (s.mru ++ s.mfu ++ s.mru_ghost ++ (s.mfu_ghost.erase p)).Nodup
            exact List.Nodup.sublist (sub4 (List.Sublist.refl _) (List.Sublist.refl _)
              (List.Sublist.refl _) hsubD) hnd
          · show p ∉ s.mru ++ s.mfu ++ s.mru_ghost ++ (s.mfu_ghost.erase p)
            intro hm
            rcases mem4.1 hm with hA | hB | hC2 | hD2
            · exact h1 hA
            · exact h2 hB
            · exact h3 hC2
            · exact ((List.Nodup.mem_erase_iff nD).1 hD2).1 rfl
          · show s.mru.length + s.mfu.length + s.mru_ghost.length +
              (s.mfu_ghost.erase p).length < 2 * s.replacer_size
            omega
        · rw [if_neg h4]
          show ArcWF (arcMissInsert s p fid)
          unfold arcMissInsert
          have hpfresh : p ∉ arcLists s := by
            intro hm
            rcases mem4.1 hm with hA | hB | hC2 | hD2
            · exact h1 hA
            · exact h2 hB
            · exact h3 hC2
            · exact h4 hD2
          by_cases hAghost : s.mru.length + s.mru_ghost.length = s.replacer_size
          · rw [if_pos hAghost]
            rcases hC : s.mru_ghost with _ | ⟨g0, grest⟩
            · rw [hC] at hAghost i2
              simp only [List.length_nil] at hAghost i2
              rcases hA : s.mru with _ | ⟨x, rest⟩
              · rw [hA] at hAghost
                simp only [List.length_nil] at hAghost
                omega
              · rw [hA] at i1 i2 i3 hk1 hk2 hAghost h1 nA dAB
                rw [show arcLists s
                    = (x :: rest) ++ s.mfu ++ s.mru_ghost ++ s.mfu_ghost from by
                  rw [arcLists, hA]] at hnd
                rw [hC] at hnd i3
                simp only [List.length_cons, List.length_nil] at i1 i2 i3 hAghost
                have hBnil : s.mfu.length = 0 := by omega
                refine insertMru_wf _ p fid ⟨⟨?_, ?_, ?_, i4, ?_, ?_, ?_⟩, ?_⟩
                  ?_ ?_ ?_ ?_
                · show rest.length + s.mfu.length ≤ s.replacer_size
                  omega
                · show rest.length + ([] : List Nat).length ≤ s.replacer_size
                  simp only [List.length_nil]
                  omega
                · show rest.length + s.mfu.length + ([] : List Nat).length +
                    s.mfu_ghost.length ≤ 2 * s.replacer_size
                  simp only [List.length_nil]
                  omega
                · intro q hq
                  obtain ⟨hne, hq2⟩ := mem_alKeys_erase.1 hq
                  rcases hk1 q hq2 with hqa | hqb
                  · rcases List.mem_cons.1 hqa with rfl | hqr
                    · exact absurd rfl hne
                    · exact Or.inl hqr
                  · exact Or.inr hqb
                · intro q hq
                  refine mem_alKeys_erase.2 ⟨?_, hk2 q (List.mem_cons_of_mem _ hq)⟩
                  intro hqx
                  have hxrest : x ∉ rest := by
                    rw [List.nodup_cons] at nA
                    exact nA.1
                  exact hxrest (hqx ▸ hq)
                · intro q hq
                  refine mem_alKeys_erase.2 ⟨?_, hk3 q hq⟩
                  intro hqx
                  exact dAB (List.mem_cons_self x rest) (hqx ▸ hq)
                · show (rest ++ s.mfu ++ ([] : List Nat) ++ s.mfu_ghost).Nodup
                  exact List.Nodup.sublist (sub4 (List.sublist_cons_self x rest)
                    (List.Sublist.refl _) (List.Sublist.refl _) (List.Sublist.refl _)) hnd
                · show p ∉ rest ++ s.mfu ++ ([] : List Nat) ++ s.mfu_ghost
                  intro hm
                  rcases mem4.1 hm with hA2 | hB2 | hC2 | hD2
                  · exact h1 (List.mem_cons_of_mem _ hA2)
                  · exact h2 hB2
                  · simp at hC2
                  · exact h4 hD2
                · show rest.length + s.mfu.length < s.replacer_size
                  omega
                · show rest.length + ([] : List Nat).length < s.replacer_size
                  simp only [List.length_nil]
                  omega
                · show rest.length + s.mfu.length + ([] : List Nat).length +
                    s.mfu_ghost.length < 2 * s.replacer_size
                  simp only [List.length_nil]
                  omega
            · rw [hC] at i2 i3 hAghost h3 nC dCD
              rw [show arcLists s
                  = s.mru ++ s.mfu ++ (g0 :: grest) ++ s.mfu_ghost from by
                rw [arcLists, hC]] at hnd
              simp only [List.length_cons] at i2 i3 hAghost
              refine missReplaceInsert_wf _ p fid ⟨⟨i1, ?_, ?_, i4, hk1, hk2, hk3⟩, ?_⟩
                ?_ ?_ ?_ ?_ hc
              · show s.mru.length + grest.length ≤ s.replacer_size
                omega
              · show s.mru.length + s.mfu.length + grest.length +
                  s.mfu_ghost.length ≤ 2 * s.replacer_size
                omega
              · show (s.mru ++ s.mfu ++ grest ++ s.mfu_ghost).Nodup
                exact List.Nodup.sublist (sub4 (List.Sublist.refl _) (List.Sublist.refl _)
                  (List.sublist_cons_self g0 grest) (List.Sublist.refl _)) hnd
              · show p ∉ s.mru ++ s.mfu ++ grest ++ s.mfu_ghost
                intro hm
                rcases mem4.1 hm with hA2 | hB2 | hC2 | hD2
                · exact h1 hA2
                · exact h2 hB2
                · exact h3 (List.mem_cons_of_mem _ hC2)
                · exact h4 hD2
              · show s.mru.length + s.mfu.length + grest.length +
                  s.mfu_ghost.length < 2 * s.replacer_size
                omega
              · show s.mru.length + grest.length < s.replacer_size
                omega
              · show s.mru.length < s.replacer_size
                omega
          · rw [if_neg hAghost]
            by_cases htotc : s.replacer_size ≤ arcTotal s
            · rw [if_pos htotc]
              rw [arcTotal] at htotc
              by_cases hfull : arcTotal s = 2 * s.replacer_size
              · rw [if_pos hfull]
                rw [arcTotal] at hfull
                have hDpos : 0 < s.mfu_ghost.length := by omega
                have hdrop : (s.mfu_ghost.drop 1).length = s.mfu_ghost.length - 1 := by
                  rw [List.length_drop]
                refine missReplaceInsert_wf _ p fid
                  ⟨⟨i1, i2, ?_, i4, hk1, hk2, hk3⟩, ?_⟩ ?_ ?_ ?_ ?_ hc
                · show s.mru.length + s.mfu.length + s.mru_ghost.length +
                    (s.mfu_ghost.drop 1).length ≤ 2 * s.replacer_size
                  omega
                · show (s.mru ++ s.mfu ++ s.mru_ghost ++ s.mfu_ghost.drop 1).Nodup
                  exact List.Nodup.sublist (sub4 (List.Sublist.refl _) (List.Sublist.refl _)
                    (List.Sublist.refl _) (List.drop_sublist 1 s.mfu_ghost)) hnd
                · show p ∉ s.mru ++ s.mfu ++ s.mru_ghost ++ s.mfu_ghost.drop 1
                  intro hm
                  rcases mem4.1 hm with hA2 | hB2 | hC2 | hD2
                  · exact h1 hA2
                  · exact h2 hB2
                  · exact h3 hC2
                  · exact h4 (List.mem_of_mem_drop hD2)
                · show s.mru.length + s.mfu.length + s.mru_ghost.length +
                    (s.mfu_ghost.drop 1).length < 2 * s.replacer_size
                  omega
                · show s.mru.length + s.mru_ghost.length < s.replacer_size
                  omega
                · show s.mru.length < s.replacer_size
                  omega
              · rw [if_neg hfull]
                rw [arcTotal] at hfull
                refine missReplaceInsert_wf _ p fid
                  ⟨⟨i1, i2, i3, i4, hk1, hk2, hk3⟩, hnd⟩ hpfresh ?_ ?_ ?_ hc
                · show arcTotal s < 2 * s.replacer_size
                  rw [arcTotal]
                  omega
                · omega
                · omega
            · rw [if_neg htotc]
              rw [arcTotal, not_le] at htotc
              refine insertMru_wf _ p fid ⟨⟨i1, i2, i3, i4, hk1, hk2, hk3⟩, hnd⟩
                hpfresh ?_ ?_ ?_
              · omega
              · omega
              · rw [arcTotal]
                omega

theorem arcReplace_size (s : ArcReplacer) (g : Bool) :
    (arcReplace s g).replacer_size = s.replacer_size := by
  unfold arcReplace
  split
  · split <;> rfl
  · split <;> rfl

theorem arcGhostHit_size (s : ArcReplacer) (p fid : Nat) (b : Bool) :
    (arcGhostHit s p fid b).replacer_size = s.replacer_size := by
  cases b <;>
    (unfold arcGhostHit
     show (arcReplace _ _).replacer_size = _
     rw [arcReplace_size])

theorem arcMissInsert_size (s : ArcReplacer) (p fid : Nat) :
    (arcMissInsert s p fid).replacer_size = s.replacer_size := by
  unfold arcMissInsert
  split
  · split
    · show (arcReplace _ _).replacer_size = _
      rw [arcReplace_size]
    · split
      · rfl
      · rfl
  · split
    · show (arcReplace _ _).replacer_size = _
      rw [arcReplace_size]
      split <;> rfl
    · rfl

theorem record_access_size (s : ArcReplacer) (p fid : Nat) :
    (record_access s p fid).replacer_size = s.replacer_size := by
  unfold record_access
  show (if p ∈ s.mru then _ else _ : ArcReplacer).replacer_size = _
  split
  · rfl
  · split
    · rfl
    · split
      · exact arcGhostHit_size s p fid false
      · split
        · exact arcGhostHit_size s p fid true
        · exact arcMissInsert_size s p fid

theorem set_evictable_size (s : ArcReplacer) (p : Nat) (ev : Bool) :
    (set_evictable s p ev).replacer_size = s.replacer_size := by
  unfold set_evictable
  rcases halGet : alGet s.page_table p with _ | n <;> rfl

theorem evict_size (s : ArcReplacer) :
    (evict s).2.replacer_size = s.replacer_size := by
  unfold evict
  rcases hpick : evictPick s with _ | ⟨p, b⟩
  · rfl
  · cases b <;> rfl

theorem removePage_size (s : ArcReplacer) (p : Nat) :
    (removePage s p).replacer_size = s.replacer_size := by
  unfold removePage
  split
  · rfl
  · split <;> rfl

theorem arcStep_wf (s : ArcReplacer) (op : ArcOp) (h : ArcWF s)
    (hc : 0 < s.replacer_size) : ArcWF (arcStep s op) := by
  cases op with
  | access p fid => exact record_access_wf s p fid h hc
  | setEv p ev => exact set_evictable_wf s p ev h
  | evictOp => exact evict_wf s h
  | removeOp p => exact removePage_wf s p h

theorem arcStep_size (s : ArcReplacer) (op : ArcOp) :
    (arcStep s op).replacer_size = s.replacer_size := by
  cases op with
  | access p fid => exact record_access_size s p fid
  | setEv p ev => exact set_evictable_size s p ev
  | evictOp => exact evict_size s
  | removeOp p => exact removePage_size s p

theorem arcInit_wf (c : Nat) : ArcWF (arcInit c) := by
  refine ⟨⟨?_, ?_, ?_, ?_, ?_, ?_, ?_⟩, ?_⟩ <;>
    simp [arcInit, arcLists, alKeys]

theorem arcRun_wf (c : Nat) (hc : 0 < c) (ops : List ArcOp) :
    ArcWF (arcRun c ops) ∧ (arcRun c ops).replacer_size = c := by
  suffices h : ∀ s, ArcWF s → s.replacer_size = c →
      ArcWF (ops.foldl arcStep s) ∧ (ops.foldl arcStep s).replacer_size = c from
    h _ (arcInit_wf c) rfl
  intro s hs hsize
  induction ops generalizing s with
  | nil => exact ⟨hs, hsize⟩
  | cons op rest ih =>
    exact ih _ (arcStep_wf s op hs (by rw [hsize]; exact hc))
      ((arcStep_size s op).trans hsize)

/-- Claim C10: after any sequence of replacer operations from a fresh
replacer with a positive frame capacity, the four-list ARC invariants
hold — |mru| + |mfu| ≤ capacity, |mru| + |mru_ghost| ≤ capacity, the
total of all four lists is at most twice the capacity, the adaptive
target stays within [0, capacity] — and the key set of the page table is
exactly the union of mru and mfu. -/
theorem arc_invariants (c : Nat) (hc : 0 < c) (ops : List ArcOp) :
    (arcRun c ops).mru.length + (arcRun c ops).mfu.length ≤ c ∧
    (arcRun c ops).mru.length + (arcRun c ops).mru_ghost.length ≤ c ∧
    (arcRun c ops).mru.length + (arcRun c ops).mfu.length +
      (arcRun c ops).mru_ghost.length + (arcRun c ops).mfu_ghost.length ≤ 2 * c ∧
    (arcRun c ops).mru_target_size ≤ c ∧
    (∀ q ∈ alKeys (arcRun c ops).page_table,
      q ∈ (arcRun c ops).mru ∨ q ∈ (arcRun c ops).mfu) ∧
    (∀ q, q ∈ (arcRun c ops).mru ∨ q ∈ (arcRun c ops).mfu →
      q ∈ alKeys (arcRun c ops).page_table) := by
  obtain ⟨⟨⟨i1, i2, i3, i4, hk1, hk2, hk3⟩, _⟩, hsize⟩ := arcRun_wf c hc ops
  rw [hsize] at i1 i2 i3 i4
  exact ⟨i1, i2, i3, i4, hk1, fun q hq => hq.elim (hk2 q) (hk3 q)⟩

/-- Witness for C10 on a concrete operation sequence at capacity 2:
hits, ghost hits, eviction, pinning and removal all occur. -/
theorem arc_invariants_witness :
    (0 : Nat) < 2 ∧
    ((arcRun 2 [ArcOp.access 1 7, ArcOp.setEv 1 true, ArcOp.access 2 8,
        ArcOp.access 1 7, ArcOp.evictOp, ArcOp.access 3 9,
        ArcOp.removeOp 1, ArcOp.access 4 10]).mru.length +
      (arcRun 2 [ArcOp.access 1 7, ArcOp.setEv 1 true, ArcOp.access 2 8,
        ArcOp.access 1 7, ArcOp.evictOp, ArcOp.access 3 9,
        ArcOp.removeOp 1, ArcOp.access 4 10]).mfu.length ≤ 2 ∧
    (arcRun 2 [ArcOp.access 1 7, ArcOp.setEv 1 true, ArcOp.access 2 8,
        ArcOp.access 1 7, ArcOp.evictOp, ArcOp.access 3 9,
        ArcOp.removeOp 1, ArcOp.access 4 10]).mru.length +
      (arcRun 2 [ArcOp.access 1 7, ArcOp.setEv 1 true, ArcOp.access 2 8,
        ArcOp.access 1 7, ArcOp.evictOp, ArcOp.access 3 9,
        ArcOp.removeOp 1, ArcOp.access 4 10]).mru_ghost.length ≤ 2 ∧
    (arcRun 2 [ArcOp.access 1 7, ArcOp.setEv 1 true, ArcOp.access 2 8,
        ArcOp.access 1 7, ArcOp.evictOp, ArcOp.access 3 9,
        ArcOp.removeOp 1, ArcOp.access 4 10]).mru.length +
      (arcRun 2 [ArcOp.access 1 7, ArcOp.setEv 1 true, ArcOp.access 2 8,
        ArcOp.access 1 7, ArcOp.evictOp, ArcOp.access 3 9,
        ArcOp.removeOp 1, ArcOp.access 4 10]).mfu.length +
      (arcRun 2 [ArcOp.access 1 7, ArcOp.setEv 1 true, ArcOp.access 2 8,
        ArcOp.access 1 7, ArcOp.evictOp, ArcOp.access 3 9,
        ArcOp.removeOp 1, ArcOp.access 4 10]).mru_ghost.length +
      (arcRun 2 [ArcOp.access 1 7, ArcOp.setEv 1 true, ArcOp.access 2 8,
        ArcOp.access 1 7, ArcOp.evictOp, ArcOp.access 3 9,
        ArcOp.removeOp 1, ArcOp.access 4 10]).mfu_ghost.length ≤ 2 * 2 ∧
    (arcRun 2 [ArcOp.access 1 7, ArcOp.setEv 1 true, ArcOp.access 2 8,
        ArcOp.access 1 7, ArcOp.evictOp, ArcOp.access 3 9,
        ArcOp.removeOp 1, ArcOp.access 4 10]).mru_target_size ≤ 2 ∧
    (∀ q ∈ alKeys (arcRun 2 [ArcOp.access 1 7, ArcOp.setEv 1 true, ArcOp.access 2 8,
        ArcOp.access 1 7, ArcOp.evictOp, ArcOp.access 3 9,
        ArcOp.removeOp 1, ArcOp.access 4 10]).page_table,
      q ∈ (arcRun 2 [ArcOp.access 1 7, ArcOp.setEv 1 true, ArcOp.access 2 8,
        ArcOp.access 1 7, ArcOp.evictOp, ArcOp.access 3 9,
        ArcOp.removeOp 1, ArcOp.access 4 10]).mru ∨
      q ∈ (arcRun 2 [ArcOp.access 1 7, ArcOp.setEv 1 true, ArcOp.access 2 8,
        ArcOp.access 1 7, ArcOp.evictOp, ArcOp.access 3 9,
        ArcOp.removeOp 1, ArcOp.access 4 10]).mfu) ∧
    (∀ q, q ∈ (arcRun 2 [ArcOp.access 1 7, ArcOp.setEv 1 true, ArcOp.access 2 8,
        ArcOp.access 1 7, ArcOp.evictOp, ArcOp.access 3 9,
        ArcOp.removeOp 1, ArcOp.access 4 10]).mru ∨
      q ∈ (arcRun 2 [ArcOp.access 1 7, ArcOp.setEv 1 true, ArcOp.access 2 8,
        ArcOp.access 1 7, ArcOp.evictOp, ArcOp.access 3 9,
        ArcOp.removeOp 1, ArcOp.access 4 10]).mfu →
      q ∈ alKeys (arcRun 2 [ArcOp.access 1 7, ArcOp.setEv 1 true, ArcOp.access 2 8,
        ArcOp.access 1 7, ArcOp.evictOp, ArcOp.access 3 9,
        ArcOp.removeOp 1, ArcOp.access 4 10]).page_table)) :=
  ⟨by decide, arc_invariants 2 (by decide)
    [ArcOp.access 1 7, ArcOp.setEv 1 true, ArcOp.access 2 8,
     ArcOp.access 1 7, ArcOp.evictOp, ArcOp.access 3 9,
     ArcOp.removeOp 1, ArcOp.access 4 10]⟩

end Dockbase
